import Mathlib

/-
Verification of the Workflow Definition Transformation and Duplicate-Detection
Engine (backend/workflow_parser.py and backend/workflow_duplicate_detector.py).

The engine manipulates YAML documents that PyYAML has loaded into Python
values.  We embed loaded YAML values as the inductive type Yaml below
(mappings keep their key order, as Python dicts do), and we embed each
engine operation as a function over such values, mirroring the Python code
statement by statement.  The yaml.load / yaml.dump boundary is modelled by
passing loaded values (or an error for text that fails to load) directly to
the operations.  Python exceptions that the source does not catch are
modelled with Except; exceptions the source catches are modelled by the
handler result written in the source.
-/

namespace Onboard

/-- YAML value as constructed by PyYAML: scalars (string, bool, int, null),
sequences, and mappings whose entries keep document order.  Mapping keys are
themselves YAML values, because YAML admits non-string keys (booleans,
integers) and PyYAML loads them as such. -/
inductive Yaml where
  | str  : String → Yaml
  | bool : Bool → Yaml
  | int  : Int → Yaml
  | null : Yaml
  | seq  : List Yaml → Yaml
  | map  : List (Yaml × Yaml) → Yaml
  deriving Repr

mutual
/-- Boolean structural equality of YAML values: constructor-wise equality.
Python == additionally identifies True with 1 and False with 0; pyEq below
adds that conflation for the set and dict operations that apply Python
equality to arbitrary keys, while the engine's own dict accesses use the
string keys written in the source, on which the two equalities agree. -/
def yamlBeq : Yaml → Yaml → Bool
  | .str a, .str c => a == c
  | .bool a, .bool c => a == c
  | .int a, .int c => a == c
  | .null, .null => true
  | .seq xs, .seq ys => yamlListBeq xs ys
  | .map a, .map b => yamlPairsBeq a b
  | _, _ => false

/-- Elementwise equality of YAML sequences. -/
def yamlListBeq : List Yaml → List Yaml → Bool
  | [], [] => true
  | x :: xs, y :: ys => yamlBeq x y && yamlListBeq xs ys
  | _, _ => false

/-- Entrywise equality of YAML mappings (same entries in the same order). -/
def yamlPairsBeq : List (Yaml × Yaml) → List (Yaml × Yaml) → Bool
  | [], [] => true
  | (k, v) :: xs, (k2, v2) :: ys => yamlBeq k k2 && yamlBeq v v2 && yamlPairsBeq xs ys
  | _, _ => false
end

/-- Python truthiness of a loaded YAML value: None, False, 0, empty string,
empty list and empty dict are falsy. -/
def Yaml.falsy : Yaml → Bool
  | .null => true
  | .bool b => !b
  | .int n => n == 0
  | .str s => s.isEmpty
  | .seq xs => xs.isEmpty
  | .map es => es.isEmpty

/-- Dict lookup d[k] / d.get(k): the value at the first entry whose key
equals k (a Python dict holds at most one entry per key). -/
def lookup (es : List (Yaml × Yaml)) (k : Yaml) : Option Yaml :=
  match es with
  | [] => none
  | (k', v) :: rest => if yamlBeq k' k then some v else lookup rest k

/-- Dict membership test k in d. -/
def containsKey (es : List (Yaml × Yaml)) (k : Yaml) : Bool :=
  match es with
  | [] => false
  | (k', _) :: rest => yamlBeq k' k || containsKey rest k

/-- Dict assignment d[k] = v: replaces the value in place when the key is
present, otherwise appends the new entry at the end, exactly as a Python
dict does. -/
def setKey (es : List (Yaml × Yaml)) (k v : Yaml) : List (Yaml × Yaml) :=
  match es with
  | [] => [(k, v)]
  | (k', v') :: rest => if yamlBeq k' k then (k, v) :: rest else (k', v') :: setKey rest k v

/-- Dict deletion del d[k]: removes the first entry whose key equals k. -/
def eraseKey (es : List (Yaml × Yaml)) (k : Yaml) : List (Yaml × Yaml) :=
  match es with
  | [] => []
  | (k', v') :: rest => if yamlBeq k' k then rest else (k', v') :: eraseKey rest k

/-- Keys of a mapping, in order. -/
def keysOf (es : List (Yaml × Yaml)) : List Yaml := es.map Prod.fst

/-- A mapping is dict-like when no key occurs twice (always true of a
mapping built by PyYAML, which constructs a Python dict). -/
def NodupKeys (es : List (Yaml × Yaml)) : Prop := (keysOf es).Nodup

mutual
/-- Canonical form of a loaded value under Python ==: True == 1 and
False == 0 hold in Python, also inside containers, so canonicalization
replaces every boolean by the corresponding integer. -/
def canonPy : Yaml → Yaml
  | .bool b => .int (if b then 1 else 0)
  | .str s => .str s
  | .int n => .int n
  | .null => .null
  | .seq xs => .seq (canonPyList xs)
  | .map es => .map (canonPyPairs es)

/-- Canonicalization of the elements of a sequence. -/
def canonPyList : List Yaml → List Yaml
  | [] => []
  | x :: xs => canonPy x :: canonPyList xs

/-- Canonicalization of the entries of a mapping. -/
def canonPyPairs : List (Yaml × Yaml) → List (Yaml × Yaml)
  | [] => []
  | (k, v) :: es => (canonPy k, canonPy v) :: canonPyPairs es
end

/-- Python == on loaded YAML values: structural equality up to the
boolean/integer conflation, so True == 1 and False == 0.  This is the
equality Python set operations and dict key lookups apply. -/
def pyEq (a b : Yaml) : Bool := yamlBeq (canonPy a) (canonPy b)

/-- Dict lookup struct2 at a key taken from another dict, as
compare_yaml_structures performs it: Python dict hashing retrieves the
entry whose key is == to the requested one, so the key True retrieves an
entry keyed 1 and vice versa. -/
def pyLookup (es : List (Yaml × Yaml)) (k : Yaml) : Option Yaml :=
  match es with
  | [] => none
  | (k', v) :: rest => if pyEq k' k then some v else pyLookup rest k

/-- A mapping is dict-like for Python key operations when no two of its
keys are == to each other, which holds of every dict PyYAML constructs. -/
def PyNodupKeys (es : List (Yaml × Yaml)) : Prop :=
  ((keysOf es).map canonPy).Nodup

/-- Key-set equality, as the source computes with
set(struct1.keys()) == set(struct2.keys()): set membership compares
elements with Python ==, under which True == 1 and False == 0, so a key
set containing 1 equals a key set containing True. -/
def sameKeySet (a b : List (Yaml × Yaml)) : Bool :=
  (keysOf a).all (fun k => (keysOf b).any (fun k2 => pyEq k2 k)) &&
  (keysOf b).all (fun k => (keysOf a).any (fun k2 => pyEq k2 k))

mutual
/-- DuplicateDetector.compare_yaml_structures: deep structural comparison.
Values of different Python types never compare equal (the type guard runs
before the scalar ==, so the boolean/integer conflation never applies to
the two compared values themselves); dicts require ==-equal key sets and
then equivalent values key by key; lists require equal length and
position-matched equivalent elements; any other value compares with ==. -/
def compare_yaml_structures : Yaml → Yaml → Bool
  | .str a, .str c => a == c
  | .bool a, .bool c => a == c
  | .int a, .int c => a == c
  | .null, .null => true
  | .seq xs, .seq ys => compareSeq xs ys
  | .map a, .map b => sameKeySet a b && compareByKeys a b
  | _, _ => false

/-- Position-matched comparison of two sequences: the length guard of the
source followed by the zipped elementwise comparison. -/
def compareSeq : List Yaml → List Yaml → Bool
  | [], [] => true
  | x :: xs, y :: ys => compare_yaml_structures x y && compareSeq xs ys
  | _, _ => false

/-- Comparison of dict values key by key, iterating the keys of the first
dict as the source generator expression does: for every entry (k, v) of
struct1, compare v with struct2[k], a Python dict lookup retrieving by ==.
The preceding key-set guard makes the lookup succeed on dict-like inputs;
.null stands in for the unreachable miss. -/
def compareByKeys : List (Yaml × Yaml) → List (Yaml × Yaml) → Bool
  | [], _ => true
  | (k, v) :: rest, b =>
      compare_yaml_structures v ((pyLookup b k).getD .null) && compareByKeys rest b
end

/-- YAML parse tree before implicit scalar resolution: the composed node
tree of PyYAML, in which every plain scalar is still the raw text written
in the document, and a quoted scalar carries the string tag regardless of
its text.  Loading a text is composing it to such a tree and then
resolving each scalar; texts that fail to compose are represented by the
absence of a tree. -/
inductive RawYaml where
  | scalar : String → RawYaml
  | qscalar : String → RawYaml
  | seq : List RawYaml → RawYaml
  | map : List (RawYaml × RawYaml) → RawYaml
  deriving Repr

/-- Plain scalars that the resolver reads as null. -/
def nullWords : List String := ["~", "null", "Null", "NULL", ""]

/-- Value of a decimal digit character. -/
def digitVal (c : Char) : Nat := c.toNat - 48

/-- Value of a decimal digit string, most significant digit first. -/
def digitsVal (l : List Char) : Nat := l.foldl (fun a c => 10 * a + digitVal c) 0

/-- Implicit resolution of a plain scalar by WorkflowYAMLLoader: the
module-level loop of workflow_parser.py removes the boolean resolvers
registered under the first letters O, o, Y, y and N, n, so the on, off,
yes and no families stay strings while true and false are still booleans;
nulls and unsigned decimal integers resolve as usual, and every other
plain scalar is a string (the resolver families are restricted to the
scalars that occur in workflow documents). -/
def wfResolveScalar (s : String) : Yaml :=
  if ["true", "True", "TRUE"].contains s then .bool true
  else if ["false", "False", "FALSE"].contains s then .bool false
  else if nullWords.contains s then .null
  else if s.length > 0 && s.data.all Char.isDigit then .int (digitsVal s.data)
  else .str s

/-- Implicit resolution of a plain scalar by yaml.SafeLoader as it exists
in this program: the module-level loop of workflow_parser.py reads
WorkflowYAMLLoader.yaml_implicit_resolvers, which is the one resolver dict
inherited from yaml.resolver.Resolver and shared with SafeLoader, and
item-assigns the filtered lists back into that same shared dict, so
importing workflow_parser strips the on, off, yes and no boolean families
from SafeLoader itself and yaml.safe_load resolves exactly as
WorkflowYAMLLoader does. -/
def safeResolveScalar (s : String) : Yaml := wfResolveScalar s

mutual
/-- Construction of a loaded value from a parse tree, resolving every
plain scalar with the resolver of the chosen loader; a quoted scalar is
its text as a string. -/
def resolveRaw (f : String → Yaml) : RawYaml → Yaml
  | .scalar s => f s
  | .qscalar s => .str s
  | .seq xs => .seq (resolveRawList f xs)
  | .map es => .map (resolveRawPairs f es)

def resolveRawList (f : String → Yaml) : List RawYaml → List Yaml
  | [] => []
  | x :: xs => resolveRaw f x :: resolveRawList f xs

def resolveRawPairs (f : String → Yaml) : List (RawYaml × RawYaml) → List (Yaml × Yaml)
  | [] => []
  | (k, v) :: es => (resolveRaw f k, resolveRaw f v) :: resolveRawPairs f es
end

/-- Result of yaml.safe_load on a composable text, in this program equal
to loading with WorkflowYAMLLoader because the two share one mutated
resolver dict. -/
def safeLoad (r : RawYaml) : Yaml := resolveRaw safeResolveScalar r

/-- Decimal digit characters of n, most significant first, for any fuel
exceeding n. -/
def natReprAux : Nat → Nat → List Char
  | 0, _ => []
  | fuel + 1, n =>
      if n < 10 then [Char.ofNat (48 + n)]
      else natReprAux fuel (n / 10) ++ [Char.ofNat (48 + n % 10)]

/-- Decimal text of an integer, as yaml.dump writes int values. -/
def intRepr : Int → String
  | .ofNat m => ⟨natReprAux (m + 1) m⟩
  | .negSucc m => ⟨'-' :: natReprAux (m + 2) (m + 1)⟩

/-- Test asked by the PyYAML emitter before writing a string value as a
plain scalar: would the implicit resolver (the same shared, mutated dict)
read the plain text back as a string?  When not, the emitter quotes the
scalar. -/
def emitsPlain (s : String) : Bool :=
  match wfResolveScalar s with
  | .str _ => true
  | _ => false

mutual
/-- yaml.dump with WorkflowYAMLDumper, at the node level: booleans are
written as the plain words true and false, null as the plain word null,
integers in decimal, and a string is written plain when the shared
resolver reads the plain text back as a string and quoted otherwise (the
block or flow style chosen by the style hooks changes only the layout,
never the composed scalar); sequences and mappings are written entry by
entry in order, keys dumped like any other value. -/
def dumpRaw : Yaml → RawYaml
  | .str s => if emitsPlain s then .scalar s else .qscalar s
  | .bool b => .scalar (if b then "true" else "false")
  | .int n => .scalar (intRepr n)
  | .null => .scalar "null"
  | .seq xs => .seq (dumpRawList xs)
  | .map es => .map (dumpRawPairs es)

/-- Emission of the elements of a sequence, in order. -/
def dumpRawList : List Yaml → List RawYaml
  | [] => []
  | x :: xs => dumpRaw x :: dumpRawList xs

/-- Emission of the entries of a mapping, in order. -/
def dumpRawPairs : List (Yaml × Yaml) → List (RawYaml × RawYaml)
  | [] => []
  | (k, v) :: es => (dumpRaw k, dumpRaw v) :: dumpRawPairs es
end

mutual
/-- Every integer in the value is nonnegative: negative integers do not
occur in workflow documents, and the restricted resolver model above only
reads unsigned decimals back as integers. -/
def intsNonneg : Yaml → Bool
  | .str _ => true
  | .bool _ => true
  | .int n => decide (0 ≤ n)
  | .null => true
  | .seq xs => intsNonnegList xs
  | .map es => intsNonnegPairs es

/-- Nonnegativity of the integers of a sequence. -/
def intsNonnegList : List Yaml → Bool
  | [] => true
  | x :: xs => intsNonneg x && intsNonnegList xs

/-- Nonnegativity of the integers of a mapping, keys included. -/
def intsNonnegPairs : List (Yaml × Yaml) → Bool
  | [] => true
  | (k, v) :: es => intsNonneg k && intsNonneg v && intsNonnegPairs es
end

/-- WorkflowJob dataclass of workflow_parser.py. -/
structure WorkflowJob where
  name : Yaml
  runs_on : Yaml
  steps : Yaml
  needs : Yaml
  if_condition : Yaml
  strategy : Yaml
  environment : Yaml
  deriving Repr

/-- WorkflowStructure dataclass of workflow_parser.py; jobs is an ordered
mapping from job id to WorkflowJob. -/
structure WorkflowStructure where
  name : Yaml
  on_triggers : Yaml
  jobs : List (Yaml × WorkflowJob)
  env : Yaml
  defaults : Yaml
  deriving Repr

/-- Construction of one WorkflowJob from a job configuration dict, with
the defaults written in parse_workflow. -/
def mkWorkflowJob (job_id : Yaml) (cfg : List (Yaml × Yaml)) : WorkflowJob :=
  { name := (lookup cfg (.str "name")).getD job_id
    runs_on := (lookup cfg (.str "runs-on")).getD (.str "ubuntu-latest")
    steps := (lookup cfg (.str "steps")).getD (.seq [])
    needs := (lookup cfg (.str "needs")).getD .null
    if_condition := (lookup cfg (.str "if")).getD .null
    strategy := (lookup cfg (.str "strategy")).getD .null
    environment := (lookup cfg (.str "environment")).getD .null }

/-- Job loop of parse_workflow: job configurations that are not dicts are
skipped. -/
def parseJobs : List (Yaml × Yaml) → List (Yaml × WorkflowJob)
  | [] => []
  | (job_id, job_config) :: rest =>
      match job_config with
      | .map cfg => (job_id, mkWorkflowJob job_id cfg) :: parseJobs rest
      | _ => parseJobs rest

/-- WorkflowParser.parse_workflow.  The input is the outcome of composing
the text (none models a yaml.YAMLError, re-raised as ValueError); a
composable text is loaded with yaml.safe_load, which after the import-time
resolver mutation keeps the trigger key spelled on a string.  A top level
that is not a mapping raises ValueError, and a jobs value that is not a
mapping makes the .items() call raise AttributeError, which parse_workflow
does not catch. -/
def parse_workflow (raw : Option RawYaml) : Except String WorkflowStructure :=
  match raw with
  | none => .error "Invalid YAML"
  | some r =>
    match safeLoad r with
    | .map entries =>
      let name := (lookup entries (.str "name")).getD (.str "Unnamed Workflow")
      let on0 := (lookup entries (.str "on")).getD (.map [])
      let on_triggers :=
        match on0 with
        | .str s => Yaml.map [(.str s, .map [])]
        | v => v
      let env := (lookup entries (.str "env")).getD .null
      let defaults := (lookup entries (.str "defaults")).getD .null
      match (lookup entries (.str "jobs")).getD (.map []) with
      | .map js =>
          .ok { name := name, on_triggers := on_triggers, jobs := parseJobs js,
                env := env, defaults := defaults }
      | _ => .error "AttributeError: jobs value has no items method"
    | _ => .error "Workflow YAML must be a dictionary"

/-- Test that pat is a leading segment of l. -/
def isPrefixChars : List Char → List Char → Bool
  | [], _ => true
  | _ :: _, [] => false
  | p :: ps, c :: cs => p == c && isPrefixChars ps cs

/-- Suffix of l that follows the first occurrence of pat, when pat occurs
in l at all. -/
def suffixAfterFirst (pat : List Char) (l : List Char) : Option (List Char) :=
  match l with
  | [] => if isPrefixChars pat [] then some [] else none
  | _ :: cs => if isPrefixChars pat l then some (l.drop pat.length) else suffixAfterFirst pat cs

/-- Python substring membership pat in s. -/
def strContains (s pat : String) : Bool := (suffixAfterFirst pat.toList s.toList).isSome

/-- Characters matched by the regex class backslash-s of Python re on the
strings at hand. -/
def isPyWs (c : Char) : Bool :=
  c == ' ' || c == '\t' || c == '\n' || c == '\r' || c == '\x0b' || c == '\x0c'

/-- Python str.lower of one character, for the ASCII texts at hand. -/
def lowerChar (c : Char) : Char :=
  if 'A' ≤ c ∧ c ≤ 'Z' then Char.ofNat (c.toNat + 32) else c

/-- Python str.lower, for the ASCII texts at hand. -/
def pyLower (s : String) : String := ⟨s.data.map lowerChar⟩

/-- Python str.split on the newline character: the segments between
newlines, with empty segments kept. -/
def splitLines (l : List Char) : List (List Char) :=
  match l with
  | [] => [[]]
  | c :: cs =>
      let r := splitLines cs
      if c = '\n' then [] :: r
      else
        match r with
        | [] => [[c]]
        | ln :: rest => (c :: ln) :: rest

/-- Space-join of Python str.join. -/
def joinSpace : List String → String
  | [] => ""
  | [s] => s
  | s :: rest => s ++ " " ++ joinSpace rest

/-- re.search of a pattern of the form head followed by dot-star followed
by one of several alternative words (the shape of every build and test
pattern except the make pattern): the dot of Python re does not cross a
newline, so a match lies within one line, and when any occurrence of head
admits a word after it on its line, the first occurrence on that line does
too, so it suffices to look after the first occurrence per line. -/
def matchHeadThen (head : String) (alts : List String) (text : String) : Bool :=
  (splitLines text.data).any (fun line =>
    match suffixAfterFirst head.data line with
    | some suf => alts.any (fun w => (suffixAfterFirst w.data suf).isSome)
    | none => false)

/-- re.search of the npm patterns, whose alternatives are run dot-star word
or word directly (the word is build for the build family and test for the
test family; the optional final s of the test pattern never affects
existence of a match). -/
def matchNpmThen (word : String) (text : String) : Bool :=
  (splitLines text.data).any (fun line =>
    match suffixAfterFirst "npm".data line with
    | some suf =>
        (match suffixAfterFirst "run".data suf with
         | some suf2 => (suffixAfterFirst word.data suf2).isSome
         | none => false) ||
        (suffixAfterFirst word.data suf).isSome
    | none => false)

/-- re.search of the make pattern: the word make followed by a whitespace
character or by the end of the string (the end anchor also matches before
a final newline, which the whitespace class covers as well). -/
def matchMakeWord (text : String) : Bool := go text.toList where
  /-- Scan every position of the text for the word make with the required
  follower. -/
  go : List Char → Bool
  | [] => false
  | c :: cs =>
      (isPrefixChars "make".toList (c :: cs) &&
        (match (c :: cs).drop 4 with
         | [] => true
         | d :: _ => isPyWs d)) || go cs

/-- Disjunction of the BUILD_PATTERNS of WorkflowParser over a lowercased
text: mvn then compile or package or install, gradle then build or
assemble, npm then optionally run then build, dotnet then build, go then
build, cargo then build, and make followed by whitespace or the end. -/
def matchesBuildPatterns (text : String) : Bool :=
  matchHeadThen "mvn" ["compile", "package", "install"] text ||
  matchHeadThen "gradle" ["build", "assemble"] text ||
  matchNpmThen "build" text ||
  matchHeadThen "dotnet" ["build"] text ||
  matchHeadThen "go" ["build"] text ||
  matchHeadThen "cargo" ["build"] text ||
  matchMakeWord text

/-- Disjunction of the TEST_PATTERNS of WorkflowParser over a lowercased
text: mvn, gradle, npm, dotnet, go, cargo then test, the words pytest and
jest anywhere, and run then test (with an optional trailing s that never
affects existence). -/
def matchesTestPatterns (text : String) : Bool :=
  matchHeadThen "mvn" ["test"] text ||
  matchHeadThen "gradle" ["test"] text ||
  matchNpmThen "test" text ||
  matchHeadThen "dotnet" ["test"] text ||
  matchHeadThen "go" ["test"] text ||
  matchHeadThen "cargo" ["test"] text ||
  strContains text "pytest" ||
  strContains text "jest" ||
  matchHeadThen "run" ["test"] text

/-- Python str() of the scalar values a run field can carry; str() of a
list or dict produces a Python repr that no workflow uses, so it is left
unmodelled and theorems assume scalar run fields. -/
def pyStrOfRun : Yaml → Option String
  | .str s => some s
  | .null => some "None"
  | .bool true => some "True"
  | .bool false => some "False"
  | .int n => some (toString n)
  | _ => none

/-- str(s.get of run with default empty string) for one step of the
insertion point scan; a step that is not a dict makes the .get call raise
AttributeError, which the caller does not catch. -/
def runFieldText (step : Yaml) : Except String String :=
  match step with
  | .map es =>
      match pyStrOfRun ((lookup es (.str "run")).getD (.str "")) with
      | some t => .ok t
      | none => .error "str of a container is not modelled"
  | _ => .error "AttributeError: step has no get method"

/-- Space-join of the run texts of all steps of a job, lowercased: the text
that _find_insertion_points searches the build and test patterns in.  A
steps value that is not a list makes the iteration raise. -/
def jobRunText (job : WorkflowJob) : Except String String :=
  match job.steps with
  | .seq ss => do
      let rs ← ss.mapM runFieldText
      .ok (pyLower (joinSpace rs))
  | _ => .error "steps value is not iterable as a step list"

/-- InsertionPoint dataclass of workflow_parser.py. -/
structure InsertionPoint where
  location : String
  after_job : Option Yaml
  reasoning : String
  deriving Repr

/-- Python truthiness of an optional job id, for the if statements of
_find_insertion_points. -/
def optTruthy : Option Yaml → Bool
  | some v => !v.falsy
  | none => false

/-- Python equality test between two optional job ids, for the comparison
of the test job with the build job. -/
def optJobBeq : Option Yaml → Option Yaml → Bool
  | some a, some b => yamlBeq a b
  | none, none => true
  | _, _ => false

/-- Scan loop of _find_insertion_points: walks the jobs in document order
carrying the current build job, test job and last job; each job whose
joined lowercased run text matches a build pattern overwrites the build
job, likewise for test, and every job overwrites the last job. -/
def scanJobs : List (Yaml × WorkflowJob) → Option Yaml → Option Yaml → Option Yaml →
    Except String (Option Yaml × Option Yaml × Option Yaml)
  | [], b, t, l => .ok (b, t, l)
  | (job_id, job) :: rest, b, t, _ => do
      let txt ← jobRunText job
      scanJobs rest
        (if matchesBuildPatterns txt then some job_id else b)
        (if matchesTestPatterns txt then some job_id else t)
        (some job_id)

/-- WorkflowParser._find_insertion_points: after the scan, emit after_build
at the build job when one was found, after_test at the test job when one
was found and differs from the build job, and the end point at the last
job, or with no anchor when the document has no jobs. -/
def find_insertion_points (ws : WorkflowStructure) : Except String (List InsertionPoint) := do
  let (build_job, test_job, last_job) ← scanJobs ws.jobs none none none
  let pts1 : List InsertionPoint :=
    if optTruthy build_job then
      [⟨"after_build", build_job,
        "Security scanning should run after build to analyze compiled code"⟩]
    else []
  let pts2 : List InsertionPoint :=
    if optTruthy test_job && !optJobBeq test_job build_job then
      pts1 ++ [⟨"after_test", test_job,
        "Security scanning can run in parallel with or after tests"⟩]
    else pts1
  let pts3 : List InsertionPoint :=
    if optTruthy last_job then
      pts2 ++ [⟨"end", last_job, "Security scanning will run at the end of the workflow"⟩]
    else
      pts2 ++ [⟨"end", none, "Security scanning will be the first job"⟩]
  .ok pts3

/-- Fragment unwrapping of merge_job_into_workflow: a dict with exactly one
top level key is replaced by the value of that key; everything else is kept
as supplied. -/
def unwrapJobFragment : Yaml → Yaml
  | .map [(_, inner)] => inner
  | v => v

/-- Loop of the insert_after branch of merge_job_into_workflow over the
remaining entries, carrying the new dict built so far: each existing entry
is assigned into the new dict, and the new job is assigned right after the
entry whose key equals insert_after, with Python dict assignment semantics
throughout. -/
def buildNewJobsFrom (insert_after job_id f : Yaml) :
    List (Yaml × Yaml) → List (Yaml × Yaml) → List (Yaml × Yaml)
  | acc, [] => acc
  | acc, (k, v) :: rest =>
      let acc2 := setKey acc k v
      buildNewJobsFrom insert_after job_id f
        (if yamlBeq k insert_after then setKey acc2 job_id f else acc2) rest

/-- Ordered rebuild of the jobs dict in the insert_after branch of
merge_job_into_workflow, starting from an empty dict. -/
def buildNewJobs (js : List (Yaml × Yaml)) (insert_after job_id f : Yaml) :
    List (Yaml × Yaml) :=
  buildNewJobsFrom insert_after job_id f [] js

/-- WorkflowParser.merge_job_into_workflow on loaded values: unwrap a
single-key fragment, make sure a jobs dict exists, then either rebuild the
jobs dict to place the new job right after insert_after (when insert_after
is truthy and present) or assign the new job at the end.  The result is
the mapping the source then serializes with yaml.dump.  A workflow or jobs
value that is not a mapping raises an uncaught exception. -/
def merge_job_into_workflow (workflow_dict job_dict0 : Yaml) (job_id : String)
    (insert_after : Option String) : Except String Yaml :=
  let job_dict := unwrapJobFragment job_dict0
  match workflow_dict with
  | .map es0 =>
    let es := if containsKey es0 (.str "jobs") then es0 else es0 ++ [(.str "jobs", .map [])]
    match lookup es (.str "jobs") with
    | some (.map js) =>
        match insert_after with
        | some ia =>
            if ia ≠ "" ∧ containsKey js (.str ia) then
              .ok (.map (setKey es (.str "jobs")
                (.map (buildNewJobs js (.str ia) (.str job_id) job_dict))))
            else
              .ok (.map (setKey es (.str "jobs")
                (.map (setKey js (.str job_id) job_dict))))
        | none =>
            .ok (.map (setKey es (.str "jobs")
              (.map (setKey js (.str job_id) job_dict))))
    | _ => .error "TypeError: jobs value is not a mapping"
  | _ => .error "TypeError: workflow top level is not a mapping"

/-- Step fragment normalization of insert_step_into_job: a dict becomes a
one-step list, a list is used as is, anything else raises ValueError. -/
def stepFragList (step_data : Yaml) : Except String (List Yaml) :=
  match step_data with
  | .map es => .ok [.map es]
  | .seq l => .ok l
  | _ => .error "Step YAML must be a dict or list"

/-- The build_keywords list of insert_step_into_job. -/
def build_keywords : List String :=
  ["build", "compile", "maven", "gradle", "npm run build", "test"]

/-- Lowercased string of step.get(key) or empty string, as the expression
with the or-default computes it: a missing key or a falsy value gives the
empty string, a string is lowercased, and a truthy value of another type
makes the .lower() call raise. -/
def lowerStrField (step : Yaml) (key : String) : Except String String :=
  match step with
  | .map es =>
      match lookup es (.str key) with
      | none => .ok ""
      | some (.str s) => .ok (pyLower s)
      | some v => if v.falsy then .ok "" else .error "AttributeError: lower on a non-string"
  | _ => .error "AttributeError: step has no get method"

/-- Keyword test for one step of the after_build scan: any build keyword is
a substring of the lowercased name or of the lowercased run text. -/
def stepKeywordMatch (step : Yaml) : Except String Bool := do
  let nm ← lowerStrField step "name"
  let rn ← lowerStrField step "run"
  .ok (build_keywords.any (fun kw => strContains nm kw || strContains rn kw))

/-- Index scan of the after_build branch: i is the index of the next step,
acc the insertion index found so far (one past the latest matching step,
initially the length of the step list). -/
def afterBuildIndexAux : Nat → Nat → List Yaml → Except String Nat
  | _, acc, [] => .ok acc
  | i, acc, st :: rest => do
      let m ← stepKeywordMatch st
      afterBuildIndexAux (i + 1) (if m then i + 1 else acc) rest

/-- Insertion index of the after_build branch over a whole step list. -/
def afterBuildIndex (steps : List Yaml) : Except String Nat :=
  afterBuildIndexAux 0 steps.length steps

/-- Python list.insert: insert at the given index, clamped to the end. -/
def insertAt : Nat → Yaml → List Yaml → List Yaml
  | 0, a, l => a :: l
  | _ + 1, a, [] => [a]
  | n + 1, a, x :: l => x :: insertAt n a l

/-- Insertion loop of insert_step_into_job: every new step, taken in
reversed order, is inserted at the fixed index. -/
def insertEach (idx : Nat) (new_steps steps : List Yaml) : List Yaml :=
  new_steps.reverse.foldl (fun cur st => insertAt idx st cur) steps

/-- WorkflowParser.insert_step_into_job on loaded values: normalize the
step fragment, find the target job (ValueError when absent), make sure a
steps list exists, then extend at the end for position end or any unknown
position, insert after the last keyword-matching step for after_build, and
insert before the final step for before_end.  The result is the mapping
the source then serializes.  Non-mapping workflows, jobs values or job
bodies and non-list steps values raise uncaught exceptions. -/
def insert_step_into_job (workflow_dict step_data : Yaml) (target_job : String)
    (insert_position : String) : Except String Yaml := do
  let new_steps ← stepFragList step_data
  match workflow_dict with
  | .map es =>
    match lookup es (.str "jobs") with
    | some (.map js) =>
      match lookup js (.str target_job) with
      | some (.map body0) =>
          let body := if containsKey body0 (.str "steps") then body0
                      else body0 ++ [(.str "steps", .seq [])]
          match lookup body (.str "steps") with
          | some (.seq steps) => do
              let steps2 ←
                if insert_position = "end" then .ok (steps ++ new_steps)
                else if insert_position = "after_build" then do
                  let idx ← afterBuildIndex steps
                  .ok (insertEach idx new_steps steps)
                else if insert_position = "before_end" then
                  .ok (insertEach (steps.length - 1) new_steps steps)
                else .ok (steps ++ new_steps)
              .ok (.map (setKey es (.str "jobs") (.map (setKey js (.str target_job)
                    (.map (setKey body (.str "steps") (.seq steps2)))))))
          | _ => .error "TypeError: steps value is not a list"
      | some _ => .error "TypeError: job value is not a mapping"
      | none => .error ("Job " ++ target_job ++ " not found in workflow")
    | some _ => .error "TypeError: jobs value is not a mapping"
    | none => .error ("Job " ++ target_job ++ " not found in workflow")
  | _ => .error "TypeError: workflow top level is not a mapping"

/-- DuplicateDetector.normalize_yaml_content: the loaded value of the text,
or an empty dict when loading raises (the handler prints the error and
returns an empty dict). -/
def normalize_yaml_content (loaded : Except String Yaml) : Yaml :=
  match loaded with
  | .ok v => v
  | .error _ => .map []

/-- DuplicateDetector.detect_job_duplicates, reported as the list of
matching job names in document order (the other fields of each reported
dict are constants of the template metadata).  A falsy workflow or
template reports nothing; a workflow that is not a dict makes the .get
call raise, which the handler turns into the empty report; a template that
is not a dict reports nothing; otherwise every job whose content deeply
equals the template is reported. -/
def detect_job_duplicates (workflow_loaded template_loaded : Except String Yaml) :
    List Yaml :=
  let workflow_data := normalize_yaml_content workflow_loaded
  let template_data := normalize_yaml_content template_loaded
  if workflow_data.falsy || template_data.falsy then []
  else match workflow_data with
    | .map es =>
      match (lookup es (.str "jobs")).getD (.map []) with
      | .map js =>
        match template_data with
        | .map _ => (js.filter (fun p => compare_yaml_structures p.2 template_data)).map Prod.fst
        | _ => []
      | _ => []
    | _ => []

/-- One reported step-run duplicate: the job name, the reported index list
range(i, i + template length), and the step count (the remaining fields of
the reported dict are constants of the template metadata). -/
structure StepDup where
  job_name : Yaml
  step_indices : List Nat
  step_count : Nat
  deriving Repr

/-- Window index bounds of the step scan: Python range of the step count
minus the template length plus one, which is empty when the job has fewer
steps than the template. -/
def windowRange (nSteps tlen : Nat) : List Nat :=
  if tlen ≤ nSteps then List.range (nSteps - tlen + 1) else []

/-- Window loop of detect_step_duplicates for one job: every window of
template length whose slice deeply equals the template is reported with
its index range. -/
def windowMatches (tpl : List Yaml) (job_name : Yaml) (steps : List Yaml) : List StepDup :=
  (windowRange steps.length tpl.length).filterMap (fun i =>
    if compare_yaml_structures (.seq ((steps.drop i).take tpl.length)) (.seq tpl)
    then some ⟨job_name, List.range' i tpl.length, tpl.length⟩ else none)

/-- Job loop of detect_step_duplicates: jobs whose steps value is not a
list are skipped; a job content that is not a dict makes the .get call
raise AttributeError, and the handler returns the duplicates collected
before the raise, so the remaining jobs are never scanned. -/
def detectStepLoop (tpl : List Yaml) : List (Yaml × Yaml) → List StepDup
  | [] => []
  | (job_name, job_content) :: rest =>
    match job_content with
    | .map bes =>
      match (lookup bes (.str "steps")).getD (.seq []) with
      | .seq ss => windowMatches tpl job_name ss ++ detectStepLoop tpl rest
      | _ => detectStepLoop tpl rest
    | _ => []

/-- DuplicateDetector.detect_step_duplicates: after the falsy guards and
the template list check, slide a window of template length over the steps
of every job. -/
def detect_step_duplicates (workflow_loaded template_loaded : Except String Yaml) :
    List StepDup :=
  let workflow_data := normalize_yaml_content workflow_loaded
  let template_data := normalize_yaml_content template_loaded
  if workflow_data.falsy || template_data.falsy then []
  else match workflow_data with
    | .map es =>
      match (lookup es (.str "jobs")).getD (.map []) with
      | .map js =>
        match template_data with
        | .seq tpl => detectStepLoop tpl js
        | _ => []
      | _ => []
    | _ => []

/-- Outcome of a removal call: either the original text handed back
unchanged, or the yaml.dump of the modified mapping. -/
inductive RemovalOutcome where
  | unchanged : RemovalOutcome
  | modified : Yaml → RemovalOutcome
  deriving Repr

/-- DuplicateDetector.remove_job_from_workflow: any exception, including a
load failure, is caught and the original content returned; when the loaded
value is a dict with a jobs dict containing the named job, that job entry
is deleted and the mapping re-serialized; in every other case the original
content is returned (either through the explicit fallthrough or through
the handler catching a TypeError on a non-dict jobs value). -/
def remove_job_from_workflow (loaded : Except String Yaml) (job_name : String) :
    RemovalOutcome :=
  match loaded with
  | .error _ => .unchanged
  | .ok (.map es) =>
      match lookup es (.str "jobs") with
      | some (.map js) =>
          if containsKey js (.str job_name) then
            .modified (.map (setKey es (.str "jobs") (.map (eraseKey js (.str job_name)))))
          else .unchanged
      | _ => .unchanged
  | .ok _ => .unchanged

/-- Descending insertion sort, the order sorted(step_indices, reverse=True)
produces. -/
def insertDesc (i : Nat) : List Nat → List Nat
  | [] => [i]
  | j :: rest => if i ≥ j then i :: j :: rest else j :: insertDesc i rest

/-- sorted(step_indices, reverse=True). -/
def sortDesc : List Nat → List Nat
  | [] => []
  | i :: rest => insertDesc i (sortDesc rest)

/-- DuplicateDetector.remove_steps_from_job: any exception, including a
load failure, is caught and the original content returned; when the job
and its steps list exist, the indices are deleted in descending order,
each checked against the current bounds; otherwise the original content is
returned. -/
def remove_steps_from_job (loaded : Except String Yaml) (job_name : String)
    (step_indices : List Nat) : RemovalOutcome :=
  match loaded with
  | .error _ => .unchanged
  | .ok (.map es) =>
      match lookup es (.str "jobs") with
      | some (.map js) =>
          match lookup js (.str job_name) with
          | some (.map body) =>
              match lookup body (.str "steps") with
              | some (.seq ss) =>
                  let ss2 := (sortDesc step_indices).foldl
                    (fun cur i => if i < cur.length then cur.eraseIdx i else cur) ss
                  .modified (.map (setKey es (.str "jobs") (.map (setKey js (.str job_name)
                    (.map (setKey body (.str "steps") (.seq ss2)))))))
              | _ => .unchanged
          | _ => .unchanged
      | _ => .unchanged
  | .ok _ => .unchanged

/-- The wrapped-fragment test of merge_job_into_workflow, written as the
source writes it: isinstance dict and length one. -/
def isSingleKeyMap : Yaml → Bool
  | .map [_] => true
  | _ => false

/-- Steps list of a job body in the step duplicate scan: the steps value
with an empty list default, when that value is a list. -/
def stepsOfBody (bes : List (Yaml × Yaml)) : Option (List Yaml) :=
  match (lookup bes (.str "steps")).getD (.seq []) with
  | .seq l => some l
  | _ => none

/-- Spec side of the after_build contract: the index of the last step
whose flag is set, when any is. -/
def specLastKeywordIdx : List Bool → Option Nat
  | [] => none
  | b :: rest =>
      match specLastKeywordIdx rest with
      | some m => some (m + 1)
      | none => if b then some 0 else none

/-- Spec side of the planner contract: the last job in document order
whose joined run text satisfies the classification, each job paired with
its text. -/
def specLastJobWhere (p : String → Bool) : List (Yaml × String) → Option Yaml
  | [] => none
  | (j, t) :: rest =>
      match specLastJobWhere p rest with
      | some x => some x
      | none => if p t then some j else none

/-- A workflow job fixture whose steps run the given commands. -/
def sampleJob (runs : List String) : WorkflowJob :=
  { name := .str "x", runs_on := .str "ubuntu-latest",
    steps := .seq (runs.map (fun r => .map [(.str "run", .str r)])),
    needs := .null, if_condition := .null, strategy := .null, environment := .null }

/-- Jobs of the planner counterexample: job j1 only runs tests, job j2
builds and tests. -/
def c3jobs : List (Yaml × WorkflowJob) :=
  [(.str "j1", sampleJob ["mvn test"]),
   (.str "j2", sampleJob ["mvn package", "mvn test"])]

/-- Steps of the build job of the sample workflow in
test_step_insertion.py. -/
def c4steps : List Yaml :=
  [.map [(.str "name", .str "Checkout code"), (.str "uses", .str "actions/checkout@v4")],
   .map [(.str "name", .str "Setup Node.js"), (.str "uses", .str "actions/setup-node@v4")],
   .map [(.str "name", .str "Install dependencies"), (.str "run", .str "npm install")],
   .map [(.str "name", .str "Build"), (.str "run", .str "npm run build")],
   .map [(.str "name", .str "Test"), (.str "run", .str "npm test")]]

/-- The sample workflow of test_step_insertion.py, reduced to its jobs. -/
def c4wf : Yaml := .map
  [(.str "jobs", .map [(.str "build", .map [(.str "steps", .seq c4steps)])])]

/-- A one-step security scan fragment. -/
def polarisStep : Yaml := .map
  [(.str "name", .str "Polaris Security Scan"),
   (.str "uses", .str "blackduck-inc/black-duck-security-scan@v2")]

/-- Step fixtures for the duplicate detection examples. -/
def stepA : Yaml := .map [(.str "run", .str "a")]

/-- Step fixture b. -/
def stepB : Yaml := .map [(.str "run", .str "b")]

/-- Step fixture c. -/
def stepC : Yaml := .map [(.str "run", .str "c")]

/-- Step fixture d. -/
def stepD : Yaml := .map [(.str "run", .str "d")]

/-- A workflow with a single job named j carrying the given steps. -/
def wfWithSteps (ss : List Yaml) : Yaml :=
  .map [(.str "jobs", .map [(.str "j", .map [(.str "steps", .seq ss)])])]

/-
Theorems.  First the lawfulness of the boolean YAML equality and a toolkit
of lemmas about the dict primitives, then one theorem per claim with its
witness or counterexample.
-/

mutual
theorem eq_of_yamlBeq : ∀ (a b : Yaml), yamlBeq a b = true → a = b
  | .str a, b, h => by cases b <;> simp_all [yamlBeq]
  | .bool a, b, h => by cases b <;> simp_all [yamlBeq]
  | .int a, b, h => by cases b <;> simp_all [yamlBeq]
  | .null, b, h => by cases b <;> simp_all [yamlBeq]
  | .seq xs, b, h => by
      cases b <;> simp_all [yamlBeq]
      exact eq_of_yamlListBeq xs _ h
  | .map a, b, h => by
      cases b <;> simp_all [yamlBeq]
      exact eq_of_yamlPairsBeq a _ h

theorem eq_of_yamlListBeq : ∀ (xs ys : List Yaml), yamlListBeq xs ys = true → xs = ys
  | [], [], _ => rfl
  | [], _ :: _, h => by simp [yamlListBeq] at h
  | _ :: _, [], h => by simp [yamlListBeq] at h
  | x :: xs, y :: ys, h => by
      simp only [yamlListBeq, Bool.and_eq_true] at h
      rw [eq_of_yamlBeq x y h.1, eq_of_yamlListBeq xs ys h.2]

theorem eq_of_yamlPairsBeq : ∀ (xs ys : List (Yaml × Yaml)), yamlPairsBeq xs ys = true → xs = ys
  | [], [], _ => rfl
  | [], _ :: _, h => by simp [yamlPairsBeq] at h
  | _ :: _, [], h => by simp [yamlPairsBeq] at h
  | (k, v) :: xs, (k2, v2) :: ys, h => by
      simp only [yamlPairsBeq, Bool.and_eq_true] at h
      rw [eq_of_yamlBeq k k2 h.1.1, eq_of_yamlBeq v v2 h.1.2, eq_of_yamlPairsBeq xs ys h.2]
end

mutual
theorem yamlBeq_refl : ∀ (a : Yaml), yamlBeq a a = true
  | .str a => by simp [yamlBeq]
  | .bool a => by simp [yamlBeq]
  | .int a => by simp [yamlBeq]
  | .null => by simp [yamlBeq]
  | .seq xs => by simpa [yamlBeq] using yamlListBeq_refl xs
  | .map a => by simpa [yamlBeq] using yamlPairsBeq_refl a

theorem yamlListBeq_refl : ∀ (xs : List Yaml), yamlListBeq xs xs = true
  | [] => rfl
  | x :: xs => by simp [yamlListBeq, yamlBeq_refl x, yamlListBeq_refl xs]

theorem yamlPairsBeq_refl : ∀ (xs : List (Yaml × Yaml)), yamlPairsBeq xs xs = true
  | [] => rfl
  | (k, v) :: xs => by simp [yamlPairsBeq, yamlBeq_refl k, yamlBeq_refl v, yamlPairsBeq_refl xs]
end

theorem yamlBeq_iff {a b : Yaml} : yamlBeq a b = true ↔ a = b :=
  ⟨eq_of_yamlBeq a b, fun h => h ▸ yamlBeq_refl a⟩

theorem yamlBeq_false_iff {a b : Yaml} : yamlBeq a b = false ↔ a ≠ b := by
  rw [← Bool.not_eq_true, not_iff_not]
  exact yamlBeq_iff

theorem containsKey_of_lookup : ∀ {es : List (Yaml × Yaml)} {k v : Yaml},
    lookup es k = some v → containsKey es k = true := by
  intro es k v h
  induction es with
  | nil => simp [lookup] at h
  | cons e rest ih =>
      obtain ⟨k', v'⟩ := e
      simp only [lookup] at h
      simp only [containsKey]
      by_cases hb : yamlBeq k' k = true
      · simp [hb]
      · simp only [Bool.not_eq_true] at hb
        simp only [hb, if_false, Bool.false_or] at h ⊢
        exact ih h

theorem lookup_ne_nil {es : List (Yaml × Yaml)} {k v : Yaml}
    (h : lookup es k = some v) : es ≠ [] := by
  intro he; subst he; simp [lookup] at h

theorem setKey_not_mem : ∀ {es : List (Yaml × Yaml)} {k : Yaml},
    containsKey es k = false → ∀ (v : Yaml), setKey es k v = es ++ [(k, v)] := by
  intro es k h v
  induction es with
  | nil => rfl
  | cons e rest ih =>
      obtain ⟨k', v'⟩ := e
      simp only [containsKey, Bool.or_eq_false_iff] at h
      simp [setKey, h.1, ih h.2]

theorem setKey_mem_split : ∀ {es : List (Yaml × Yaml)} {k : Yaml},
    containsKey es k = true → ∀ (v : Yaml),
    ∃ pre old suf, es = pre ++ (k, old) :: suf ∧ containsKey pre k = false ∧
      setKey es k v = pre ++ (k, v) :: suf := by
  intro es k h v
  induction es with
  | nil => simp [containsKey] at h
  | cons e rest ih =>
      obtain ⟨k', v'⟩ := e
      by_cases hb : yamlBeq k' k = true
      · obtain rfl := eq_of_yamlBeq _ _ hb
        exact ⟨[], v', rest, by simp, by simp [containsKey], by simp [setKey, hb]⟩
      · simp only [Bool.not_eq_true] at hb
        simp only [containsKey, hb, Bool.false_or] at h
        obtain ⟨pre, old, suf, h1, h2, h3⟩ := ih h
        exact ⟨(k', v') :: pre, old, suf, by simp [h1],
          by simp [containsKey, hb, h2], by simp [setKey, hb, h3]⟩

theorem wfResolveScalar_str {s t : String} (h : wfResolveScalar s = .str t) : t = s := by
  unfold wfResolveScalar at h
  split_ifs at h
  all_goals simp_all

theorem emitsPlain_str {s : String} (h : emitsPlain s = true) : wfResolveScalar s = .str s := by
  unfold emitsPlain at h
  cases ht : wfResolveScalar s with
  | str t => rw [wfResolveScalar_str ht]
  | bool b => rw [ht] at h; exact Bool.noConfusion h
  | int n => rw [ht] at h; exact Bool.noConfusion h
  | null => rw [ht] at h; exact Bool.noConfusion h
  | seq l => rw [ht] at h; exact Bool.noConfusion h
  | map l => rw [ht] at h; exact Bool.noConfusion h

theorem digitChar_spec : ∀ m : Nat, m < 10 →
    (Char.ofNat (48 + m)).isDigit = true ∧ digitVal (Char.ofNat (48 + m)) = m := by
  intro m h
  interval_cases m <;> exact ⟨by decide, by decide⟩

theorem natReprAux_spec : ∀ (fuel n : Nat), n < fuel →
    natReprAux fuel n ≠ [] ∧ (natReprAux fuel n).all Char.isDigit = true ∧
      digitsVal (natReprAux fuel n) = n := by
  intro fuel
  induction fuel with
  | zero => intro n h; omega
  | succ f ih =>
      intro n h
      by_cases h10 : n < 10
      · rw [show natReprAux (f + 1) n = [Char.ofNat (48 + n)] from by
          simp [natReprAux, h10]]
        obtain ⟨hd, hv⟩ := digitChar_spec n h10
        refine ⟨by simp, by simp [hd], ?_⟩
        show 10 * 0 + digitVal (Char.ofNat (48 + n)) = n
        rw [hv]
        omega
      · have hd10 : n / 10 < f := by
          have h1 : n / 10 < n := Nat.div_lt_self (by omega) (by omega)
          omega
        obtain ⟨ihne, ihdig, ihval⟩ := ih (n / 10) hd10
        have hm : n % 10 < 10 := Nat.mod_lt _ (by omega)
        obtain ⟨hcd, hcv⟩ := digitChar_spec (n % 10) hm
        rw [show natReprAux (f + 1) n =
            natReprAux f (n / 10) ++ [Char.ofNat (48 + n % 10)] from by
          simp [natReprAux, h10]]
        refine ⟨by simp, ?_, ?_⟩
        · rw [List.all_append, ihdig]
          simp [hcd]
        · unfold digitsVal
          rw [List.foldl_append]
          show 10 * digitsVal (natReprAux f (n / 10)) + digitVal (Char.ofNat (48 + n % 10)) = n
          rw [ihval, hcv]
          omega

theorem mk_eq_iff_data {l : List Char} {w : String} : (⟨l⟩ : String) = w ↔ l = w.data := by
  cases w with
  | mk d => exact ⟨fun h => by injection h, fun h => by rw [h]⟩

theorem digits_ne_mk {l : List Char} (hdig : l.all Char.isDigit = true)
    {w : String} (hw : w.data.all Char.isDigit = false) : (⟨l⟩ : String) ≠ w := by
  intro he
  rw [mk_eq_iff_data.mp he] at hdig
  rw [hdig] at hw
  exact Bool.noConfusion hw

theorem wfResolveScalar_digits : ∀ (l : List Char), l ≠ [] → l.all Char.isDigit = true →
    wfResolveScalar ⟨l⟩ = .int (digitsVal l) := by
  intro l hne hdig
  have hg1 : (["true", "True", "TRUE"].contains (⟨l⟩ : String)) = false := by
    rw [show (["true", "True", "TRUE"].contains (⟨l⟩ : String)) =
      decide ((⟨l⟩ : String) ∈ ["true", "True", "TRUE"]) from List.elem_eq_mem _ _]
    rw [decide_eq_false_iff_not]
    intro hm
    simp only [List.mem_cons, List.not_mem_nil, or_false] at hm
    rcases hm with h | h | h
    · exact digits_ne_mk hdig (by decide) h
    · exact digits_ne_mk hdig (by decide) h
    · exact digits_ne_mk hdig (by decide) h
  have hg2 : (["false", "False", "FALSE"].contains (⟨l⟩ : String)) = false := by
    rw [show (["false", "False", "FALSE"].contains (⟨l⟩ : String)) =
      decide ((⟨l⟩ : String) ∈ ["false", "False", "FALSE"]) from List.elem_eq_mem _ _]
    rw [decide_eq_false_iff_not]
    intro hm
    simp only [List.mem_cons, List.not_mem_nil, or_false] at hm
    rcases hm with h | h | h
    · exact digits_ne_mk hdig (by decide) h
    · exact digits_ne_mk hdig (by decide) h
    · exact digits_ne_mk hdig (by decide) h
  have hg3 : (nullWords.contains (⟨l⟩ : String)) = false := by
    rw [show (nullWords.contains (⟨l⟩ : String)) =
      decide ((⟨l⟩ : String) ∈ nullWords) from List.elem_eq_mem _ _]
    rw [decide_eq_false_iff_not]
    intro hm
    unfold nullWords at hm
    simp only [List.mem_cons, List.not_mem_nil, or_false] at hm
    rcases hm with h | h | h | h | h
    · exact digits_ne_mk hdig (by decide) h
    · exact digits_ne_mk hdig (by decide) h
    · exact digits_ne_mk hdig (by decide) h
    · exact digits_ne_mk hdig (by decide) h
    · exact hne (mk_eq_iff_data.mp h)
  have hg4 : ((⟨l⟩ : String).length > 0 && (⟨l⟩ : String).data.all Char.isDigit) = true := by
    show (decide (0 < l.length) && l.all Char.isDigit) = true
    rw [hdig]
    have hp : 0 < l.length := List.length_pos.mpr hne
    simp [hp]
  unfold wfResolveScalar
  rw [hg1, hg2, hg3, hg4]
  simp

mutual
theorem dumpLoad : ∀ (v : Yaml), intsNonneg v = true →
    resolveRaw wfResolveScalar (dumpRaw v) = v
  | .str s, _ => by
      by_cases hp : emitsPlain s = true
      · show resolveRaw wfResolveScalar (if emitsPlain s then .scalar s else .qscalar s) = .str s
        rw [if_pos hp]
        exact emitsPlain_str hp
      · show resolveRaw wfResolveScalar (if emitsPlain s then .scalar s else .qscalar s) = .str s
        rw [if_neg hp]
        rfl
  | .bool b, _ => by cases b <;> rfl
  | .int n, h => by
      have hn : 0 ≤ n := of_decide_eq_true h
      cases n with
      | ofNat m =>
          obtain ⟨hne, hdig, hval⟩ := natReprAux_spec (m + 1) m (by omega)
          show wfResolveScalar ⟨natReprAux (m + 1) m⟩ = .int (.ofNat m)
          rw [wfResolveScalar_digits _ hne hdig, hval]
          rfl
      | negSucc m => exact absurd hn (Int.not_le.mpr (Int.negSucc_lt_zero m))
  | .null, _ => rfl
  | .seq xs, h => by
      show Yaml.seq (resolveRawList wfResolveScalar (dumpRawList xs)) = .seq xs
      rw [dumpLoadList xs h]
  | .map es, h => by
      show Yaml.map (resolveRawPairs wfResolveScalar (dumpRawPairs es)) = .map es
      rw [dumpLoadPairs es h]

theorem dumpLoadList : ∀ (xs : List Yaml), intsNonnegList xs = true →
    resolveRawList wfResolveScalar (dumpRawList xs) = xs
  | [], _ => rfl
  | x :: xs, h => by
      have h2 : intsNonneg x = true ∧ intsNonnegList xs = true := by
        simpa [intsNonnegList] using h
      show resolveRaw wfResolveScalar (dumpRaw x) ::
        resolveRawList wfResolveScalar (dumpRawList xs) = x :: xs
      rw [dumpLoad x h2.1, dumpLoadList xs h2.2]

theorem dumpLoadPairs : ∀ (es : List (Yaml × Yaml)), intsNonnegPairs es = true →
    resolveRawPairs wfResolveScalar (dumpRawPairs es) = es
  | [], _ => rfl
  | (k, v) :: es, h => by
      have h2 : intsNonneg k = true ∧ intsNonneg v = true ∧ intsNonnegPairs es = true := by
        simpa [intsNonnegPairs, and_assoc] using h
      show (resolveRaw wfResolveScalar (dumpRaw k), resolveRaw wfResolveScalar (dumpRaw v)) ::
        resolveRawPairs wfResolveScalar (dumpRawPairs es) = (k, v) :: es
      rw [dumpLoad k h2.1, dumpLoad v h2.2.1, dumpLoadPairs es h2.2.2]
end

/-- C2 counterexample: the claim states that merge_job fails with a
duplicate-job-id error and leaves the document unchanged whenever job_id
is already present.  The code has no such check: merging a fragment under
the existing id a succeeds and silently replaces the body of job a. -/
theorem c2_counterexample :
    merge_job_into_workflow
      (.map [(.str "jobs", .map [(.str "a",
        .map [(.str "runs-on", .str "old"), (.str "steps", .seq [])])])])
      (.map [(.str "runs-on", .str "new"), (.str "steps", .seq [stepA])]) "a" none =
    .ok (.map [(.str "jobs", .map [(.str "a",
        .map [(.str "runs-on", .str "new"), (.str "steps", .seq [stepA])])])]) ∧
    (Yaml.map [(.str "runs-on", .str "new"), (.str "steps", .seq [stepA])]) ≠
      (Yaml.map [(.str "runs-on", .str "old"), (.str "steps", .seq [])]) :=
  ⟨rfl, yamlBeq_false_iff.mp (by rfl)⟩

/-- C2 amended: merge_job never raises on a duplicate job_id; when
insert_after is absent and job_id already exists, the existing job keeps
its position and its body is silently overwritten with the (unwrapped)
fragment. -/
theorem c2_amended_silent_overwrite (es js : List (Yaml × Yaml)) (f : Yaml) (job_id : String)
    (hjobs : lookup es (.str "jobs") = some (.map js))
    (hmem : containsKey js (.str job_id) = true) :
    ∃ pre old suf, js = pre ++ (Yaml.str job_id, old) :: suf ∧
      containsKey pre (.str job_id) = false ∧
      merge_job_into_workflow (.map es) f job_id none =
        .ok (.map (setKey es (.str "jobs")
          (.map (pre ++ (Yaml.str job_id, unwrapJobFragment f) :: suf)))) := by
  obtain ⟨pre, old, suf, h1, h2, h3⟩ := setKey_mem_split hmem (unwrapJobFragment f)
  refine ⟨pre, old, suf, h1, h2, ?_⟩
  have hck : containsKey es (.str "jobs") = true := containsKey_of_lookup hjobs
  simp [merge_job_into_workflow, hck, hjobs, h3]

/-- C2 witness: the amended overwrite theorem applied to a one-job
document and a two-key fragment merged under the existing id a. -/
theorem c2_witness :
    ∃ pre old suf,
      [((Yaml.str "a"), Yaml.null)] = pre ++ (Yaml.str "a", old) :: suf ∧
      containsKey pre (.str "a") = false ∧
      merge_job_into_workflow (.map [(.str "jobs", .map [(.str "a", .null)])])
        (.map [(.str "x", .null), (.str "y", .null)]) "a" none =
        .ok (.map (setKey [(.str "jobs", .map [(.str "a", .null)])] (.str "jobs")
          (.map (pre ++ (Yaml.str "a",
            unwrapJobFragment (.map [(.str "x", .null), (.str "y", .null)])) :: suf)))) :=
  c2_amended_silent_overwrite _ _ _ _ rfl rfl

/-- C9 counterexample: the claim states a bare job body is never
misinterpreted as a wrapped fragment.  A bare body whose only top level
key is steps is a single-key mapping, so merge_job strips it: the inserted
job body is the steps list itself, not the supplied body. -/
theorem c9_counterexample :
    merge_job_into_workflow (.map [(.str "jobs", .map [])])
      (.map [(.str "steps", .seq [stepA])]) "newjob" none =
      .ok (.map [(.str "jobs", .map [(.str "newjob", .seq [stepA])])]) ∧
    (Yaml.seq [stepA]) ≠ (Yaml.map [(.str "steps", .seq [stepA])]) :=
  ⟨rfl, yamlBeq_false_iff.mp (by rfl)⟩

/-- C9 amended: merge_job strips every fragment that is a mapping with
exactly one top level key; a fragment that is not a single-key mapping is
inserted as supplied, and for such a body the wrapped and the bare shape
produce the same merged result. -/
theorem c9_amended_unwrap (w f wrapKey : Yaml) (job_id : String) (ia : Option String)
    (hf : isSingleKeyMap f = false) :
    unwrapJobFragment (.map [(wrapKey, f)]) = f ∧
    unwrapJobFragment f = f ∧
    merge_job_into_workflow w (.map [(wrapKey, f)]) job_id ia =
      merge_job_into_workflow w f job_id ia := by
  have h2 : unwrapJobFragment f = f := by
    cases f with
    | map es =>
        cases es with
        | nil => rfl
        | cons e rest =>
            cases rest with
            | nil => simp [isSingleKeyMap] at hf
            | cons e2 r2 => rfl
    | str s => rfl
    | bool b => rfl
    | int n => rfl
    | null => rfl
    | seq l => rfl
  have hcong : ∀ (a b : Yaml), unwrapJobFragment a = unwrapJobFragment b →
      merge_job_into_workflow w a job_id ia = merge_job_into_workflow w b job_id ia := by
    intro a b h
    unfold merge_job_into_workflow
    rw [h]
  exact ⟨rfl, h2, hcong _ _ ((show unwrapJobFragment (.map [(wrapKey, f)]) = f from rfl).trans h2.symm)⟩

/-- C9 witness: the amended unwrap theorem applied to a two-key job body
wrapped under the key scan and merged into an empty document. -/
theorem c9_witness :
    unwrapJobFragment (.map [(.str "scan",
      .map [(.str "runs-on", .str "u"), (.str "steps", .seq [])])]) =
      .map [(.str "runs-on", .str "u"), (.str "steps", .seq [])] ∧
    unwrapJobFragment (.map [(.str "runs-on", .str "u"), (.str "steps", .seq [])]) =
      .map [(.str "runs-on", .str "u"), (.str "steps", .seq [])] ∧
    merge_job_into_workflow (.map [(.str "jobs", .map [])])
      (.map [(.str "scan", .map [(.str "runs-on", .str "u"), (.str "steps", .seq [])])])
      "scan" none =
    merge_job_into_workflow (.map [(.str "jobs", .map [])])
      (.map [(.str "runs-on", .str "u"), (.str "steps", .seq [])]) "scan" none :=
  c9_amended_unwrap (.map [(.str "jobs", .map [])])
    (.map [(.str "runs-on", .str "u"), (.str "steps", .seq [])]) (.str "scan") "scan" none rfl

/-- C10 counterexample: the claim states every engine operation that
consumes document text surfaces malformed input as an error and never
returns a fallback result.  remove_job_from_workflow catches the load
failure and hands the original content back unchanged. -/
theorem c10_counterexample :
    remove_job_from_workflow
      (.error "while parsing a block mapping did not find expected key") "build" =
      .unchanged := rfl

/-- C10 amended: parse_workflow does surface malformed input as an error,
but the duplicate detector and the removal operations swallow load
failures: normalize_yaml_content returns an empty mapping, both removal
operations return the original content unchanged, and both detectors
report nothing, in every case without surfacing the error. -/
theorem c10_amended_error_swallowing :
    parse_workflow none = .error "Invalid YAML" ∧
    (∀ e, normalize_yaml_content (.error e) = .map []) ∧
    (∀ e j, remove_job_from_workflow (.error e) j = .unchanged) ∧
    (∀ e j idxs, remove_steps_from_job (.error e) j idxs = .unchanged) ∧
    (∀ e t, detect_job_duplicates (.error e) t = []) ∧
    (∀ e t, detect_step_duplicates (.error e) t = []) :=
  ⟨rfl, fun _ => rfl, fun _ _ => rfl, fun _ _ _ => rfl, fun _ _ => rfl, fun _ _ => rfl⟩

theorem containsKey_iff {es : List (Yaml × Yaml)} {k : Yaml} :
    containsKey es k = true ↔ k ∈ keysOf es := by
  induction es with
  | nil => simp [containsKey, keysOf]
  | cons e rest ih =>
      obtain ⟨k', v'⟩ := e
      simp only [containsKey, keysOf, List.map_cons, List.mem_cons, Bool.or_eq_true]
      rw [yamlBeq_iff]
      constructor
      · rintro (h | h)
        · exact Or.inl h.symm
        · exact Or.inr (by simpa [keysOf] using ih.mp h)
      · rintro (h | h)
        · exact Or.inl h.symm
        · exact Or.inr (ih.mpr (by simpa [keysOf] using h))

theorem containsKey_false_iff {es : List (Yaml × Yaml)} {k : Yaml} :
    containsKey es k = false ↔ k ∉ keysOf es := by
  rw [← Bool.not_eq_true, not_iff_not]
  exact containsKey_iff

theorem containsKey_append {a b : List (Yaml × Yaml)} {k : Yaml} :
    containsKey (a ++ b) k = (containsKey a k || containsKey b k) := by
  induction a with
  | nil => simp [containsKey]
  | cons e rest ih => cases e; simp [containsKey, ih, Bool.or_assoc]

theorem buildNewJobsFrom_append {ia jid f : Yaml} :
    ∀ (js acc : List (Yaml × Yaml)),
    (∀ kv ∈ js, containsKey acc kv.1 = false) →
    (containsKey js ia = true → containsKey acc jid = false) →
    containsKey js jid = false → NodupKeys js →
    buildNewJobsFrom ia jid f acc js = acc ++ buildNewJobsFrom ia jid f [] js := by
  intro js
  induction js with
  | nil => intro acc _ _ _ _; simp [buildNewJobsFrom]
  | cons e rest ih =>
      obtain ⟨k, v⟩ := e
      intro acc hdisj hjia hjid hnd
      have hkacc : containsKey acc k = false := hdisj (k, v) (by simp)
      have hkjid : yamlBeq k jid = false := by
        simpa [containsKey, Bool.or_eq_false_iff] using And.left (by
          simpa [containsKey, Bool.or_eq_false_iff] using hjid)
      have hknejid : k ≠ jid := by
        intro h; rw [h, yamlBeq_refl] at hkjid; simp at hkjid
      have hjidrest : containsKey rest jid = false := by
        simpa [containsKey, hkjid] using hjid
      have hndrest : NodupKeys rest := by
        simpa [NodupKeys, keysOf, List.nodup_cons] using And.right
          (by simpa [NodupKeys, keysOf, List.nodup_cons] using hnd)
      have hknotinrest : k ∉ keysOf rest := by
        have := (by simpa [NodupKeys, keysOf, List.nodup_cons] using hnd :
          k ∉ List.map Prod.fst rest ∧ (List.map Prod.fst rest).Nodup)
        simpa [keysOf] using this.1
      by_cases hk : yamlBeq k ia = true
      · have hiak : ia = k := (eq_of_yamlBeq _ _ hk).symm
        have hjidacc : containsKey acc jid = false := hjia (by simp [containsKey, hk])
        have hset1 : setKey acc k v = acc ++ [(k, v)] := setKey_not_mem hkacc v
        have hjidacc2 : containsKey (acc ++ [(k, v)]) jid = false := by
          simp [containsKey_append, hjidacc, containsKey, yamlBeq_false_iff.mpr hknejid]
        have hset2 : setKey (acc ++ [(k, v)]) jid f = acc ++ [(k, v), (jid, f)] := by
          simpa using setKey_not_mem hjidacc2 f
        have hset1z : setKey ([] : List (Yaml × Yaml)) k v = [(k, v)] := rfl
        have hjidz : containsKey [(k, v)] jid = false := by
          simp [containsKey, yamlBeq_false_iff.mpr hknejid]
        have hset2z : setKey [(k, v)] jid f = [(k, v), (jid, f)] := by
          simpa using setKey_not_mem hjidz f
        have hrest_ia : containsKey rest ia = false := by
          rw [hiak]; exact containsKey_false_iff.mpr hknotinrest
        simp only [buildNewJobsFrom, hk, if_true, hset1, hset2, hset1z, hset2z]
        rw [ih (acc ++ [(k, v), (jid, f)]) ?_ ?_ hjidrest hndrest,
            ih [(k, v), (jid, f)] ?_ ?_ hjidrest hndrest]
        · simp
        · intro kv hkv
          have h1 : containsKey acc kv.1 = false := hdisj kv (by simp [hkv])
          have h2 : kv.1 ∈ keysOf rest := containsKey_iff.mp (by
            exact containsKey_iff.mpr (by simp [keysOf]; exact ⟨kv.2, by
              simpa using hkv⟩))
          have hkne : yamlBeq k kv.1 = false := yamlBeq_false_iff.mpr (by
            intro h; rw [h] at hknotinrest; exact hknotinrest h2)
          have hjne : yamlBeq jid kv.1 = false := yamlBeq_false_iff.mpr (by
            intro h; rw [← h] at h2
            have hb := (containsKey_iff.mpr h2).symm.trans hjidrest
            simp at hb)
          simp [containsKey, hkne, hjne]
        · intro hcr; rw [hrest_ia] at hcr; exact absurd hcr (by simp)
        · intro kv hkv
          have h2 : kv.1 ∈ keysOf rest := by
            simp only [keysOf, List.mem_map]
            exact ⟨kv, hkv, rfl⟩
          have h1 : containsKey (acc ++ [(k, v), (jid, f)]) kv.1 = false := by
            have hknea : containsKey acc kv.1 = false := hdisj kv (by simp [hkv])
            have hkne : yamlBeq k kv.1 = false := yamlBeq_false_iff.mpr (by
              intro h; rw [h] at hknotinrest; exact hknotinrest h2)
            have hjne : yamlBeq jid kv.1 = false := yamlBeq_false_iff.mpr (by
              intro h; rw [← h] at h2
              have hb := (containsKey_iff.mpr h2).symm.trans hjidrest
              simp at hb)
            simp [containsKey_append, containsKey, hknea, hkne, hjne]
          exact h1
        · intro hcr; rw [hrest_ia] at hcr; exact absurd hcr (by simp)
      · have hkf : yamlBeq k ia = false := by
          cases hb : yamlBeq k ia
          · rfl
          · exact absurd hb hk
        have hset1 : setKey acc k v = acc ++ [(k, v)] := setKey_not_mem hkacc v
        have hrest_ia : containsKey ((k, v) :: rest) ia = containsKey rest ia := by
          simp [containsKey, hkf]
        simp only [buildNewJobsFrom, hkf, Bool.false_eq_true, if_false, hset1]
        have hset1z : setKey ([] : List (Yaml × Yaml)) k v = [(k, v)] := rfl
        rw [hset1z]
        rw [ih (acc ++ [(k, v)]) ?_ ?_ hjidrest hndrest,
            ih [(k, v)] ?_ ?_ hjidrest hndrest]
        · simp
        · intro kv hkv
          have h2 : kv.1 ∈ keysOf rest := by
            simp only [keysOf, List.mem_map]
            exact ⟨kv, hkv, rfl⟩
          have hkne : yamlBeq k kv.1 = false := yamlBeq_false_iff.mpr (by
            intro h; rw [h] at hknotinrest; exact hknotinrest h2)
          simp [containsKey, hkne]
        · intro hcr
          have : containsKey acc jid = false := hjia (by rw [hrest_ia]; exact hcr)
          simp [containsKey_append, containsKey, this, hkjid]
        · intro kv hkv
          have h2 : kv.1 ∈ keysOf rest := by
            simp only [keysOf, List.mem_map]
            exact ⟨kv, hkv, rfl⟩
          have hknea : containsKey acc kv.1 = false := hdisj kv (by simp [hkv])
          have hkne : yamlBeq k kv.1 = false := yamlBeq_false_iff.mpr (by
            intro h; rw [h] at hknotinrest; exact hknotinrest h2)
          simp [containsKey_append, containsKey, hknea, hkne]
        · intro hcr
          have hjacc : containsKey acc jid = false := hjia (by rw [hrest_ia]; exact hcr)
          simp [containsKey_append, containsKey, hjacc, hkjid]

theorem buildNewJobsFrom_comp {ia jid f : Yaml} :
    ∀ (l1 l2 acc : List (Yaml × Yaml)),
    buildNewJobsFrom ia jid f acc (l1 ++ l2) =
      buildNewJobsFrom ia jid f (buildNewJobsFrom ia jid f acc l1) l2 := by
  intro l1
  induction l1 with
  | nil => intro l2 acc; rfl
  | cons e rest ih =>
      intro l2 acc
      obtain ⟨k, v⟩ := e
      simp only [List.cons_append, buildNewJobsFrom]
      exact ih l2 _

theorem buildNewJobsFrom_no_hit {ia jid f : Yaml} :
    ∀ (js : List (Yaml × Yaml)), containsKey js ia = false →
    containsKey js jid = false → NodupKeys js →
    buildNewJobsFrom ia jid f [] js = js := by
  intro js
  induction js with
  | nil => intro _ _ _; rfl
  | cons e rest ih =>
      obtain ⟨k, v⟩ := e
      intro hia hjid hnd
      simp only [containsKey, Bool.or_eq_false_iff] at hia hjid
      have hndrest : NodupKeys rest := by
        have hx : k ∉ List.map Prod.fst rest ∧ (List.map Prod.fst rest).Nodup := by
          simpa [NodupKeys, keysOf, List.nodup_cons] using hnd
        simpa [NodupKeys, keysOf] using hx.2
      have hknotinrest : k ∉ keysOf rest := by
        have hx : k ∉ List.map Prod.fst rest ∧ (List.map Prod.fst rest).Nodup := by
          simpa [NodupKeys, keysOf, List.nodup_cons] using hnd
        simpa [keysOf] using hx.1
      simp only [buildNewJobsFrom, hia.1, Bool.false_eq_true, if_false]
      have hz : setKey ([] : List (Yaml × Yaml)) k v = [(k, v)] := rfl
      rw [hz, buildNewJobsFrom_append rest [(k, v)] ?_ ?_ hjid.2 hndrest,
          ih hia.2 hjid.2 hndrest]
      · rfl
      · intro kv hkv
        have h2 : kv.1 ∈ keysOf rest := by
          simp only [keysOf, List.mem_map]
          exact ⟨kv, hkv, rfl⟩
        have hkne : yamlBeq k kv.1 = false := yamlBeq_false_iff.mpr (by
          intro h; rw [h] at hknotinrest; exact hknotinrest h2)
        simp [containsKey, hkne]
      · intro hcr
        rw [hia.2] at hcr
        exact absurd hcr (by simp)

theorem buildNewJobs_split {pre suf : List (Yaml × Yaml)} {ia v jid f : Yaml}
    (hpre : containsKey pre ia = false)
    (hjid : containsKey (pre ++ (ia, v) :: suf) jid = false)
    (hnd : NodupKeys (pre ++ (ia, v) :: suf)) :
    buildNewJobs (pre ++ (ia, v) :: suf) ia jid f = pre ++ (ia, v) :: (jid, f) :: suf := by
  have hkeys : keysOf (pre ++ (ia, v) :: suf) = keysOf pre ++ ia :: keysOf suf := by
    simp [keysOf]
  rw [NodupKeys, hkeys, List.nodup_append] at hnd
  obtain ⟨hndpre, hndmid, hdisj⟩ := hnd
  rw [List.nodup_cons] at hndmid
  obtain ⟨hia_not_suf, hndsuf⟩ := hndmid
  rw [containsKey_append] at hjid
  simp only [Bool.or_eq_false_iff] at hjid
  obtain ⟨hjid_pre, hjid_mid⟩ := hjid
  simp only [containsKey, Bool.or_eq_false_iff] at hjid_mid
  obtain ⟨hia_jid, hjid_suf⟩ := hjid_mid
  have hia_suf : containsKey suf ia = false := containsKey_false_iff.mpr hia_not_suf
  unfold buildNewJobs
  rw [buildNewJobsFrom_comp pre ((ia, v) :: suf) []]
  rw [buildNewJobsFrom_no_hit pre hpre hjid_pre (by exact hndpre)]
  simp only [buildNewJobsFrom, yamlBeq_refl, if_true]
  rw [setKey_not_mem hpre v]
  have hjid2 : containsKey (pre ++ [(ia, v)]) jid = false := by
    simp [containsKey_append, hjid_pre, containsKey, hia_jid]
  rw [setKey_not_mem hjid2 f]
  have hjoin : (pre ++ [(ia, v)]) ++ [(jid, f)] = pre ++ [(ia, v), (jid, f)] := by simp
  rw [hjoin]
  rw [buildNewJobsFrom_append suf (pre ++ [(ia, v), (jid, f)]) ?_ ?_ hjid_suf (by exact hndsuf)]
  · rw [buildNewJobsFrom_no_hit suf hia_suf hjid_suf (by exact hndsuf)]
    simp
  · intro kv hkv
    have h2 : kv.1 ∈ keysOf suf := by
      simp only [keysOf, List.mem_map]
      exact ⟨kv, hkv, rfl⟩
    have h1 : containsKey pre kv.1 = false := containsKey_false_iff.mpr (by
      intro hmem
      exact hdisj hmem (by simp [h2]))
    have hiane : yamlBeq ia kv.1 = false := yamlBeq_false_iff.mpr (by
      intro h; rw [← h] at h2; exact hia_not_suf h2)
    have hjidne : yamlBeq jid kv.1 = false := yamlBeq_false_iff.mpr (by
      intro h; rw [← h] at h2
      have hb := (containsKey_iff.mpr h2).symm.trans hjid_suf
      simp at hb)
    simp [containsKey_append, containsKey, h1, hiane, hjidne]
  · intro hcr
    rw [hia_suf] at hcr
    exact absurd hcr (by simp)

theorem exceptBind_ok {α β : Type} (a : α) (g : α → Except String β) :
    (Except.ok a >>= g) = g a := rfl

theorem insertAt_eq_splice : ∀ (n : Nat) (a : Yaml) (l : List Yaml), n ≤ l.length →
    insertAt n a l = l.take n ++ a :: l.drop n := by
  intro n
  induction n with
  | zero => intro a l _; simp [insertAt]
  | succ m ih =>
      intro a l h
      cases l with
      | nil => simp at h
      | cons x xs =>
          simp only [insertAt, List.take_succ_cons, List.drop_succ_cons, List.cons_append,
            List.cons.injEq, true_and]
          exact ih a xs (by simpa using h)

theorem insertEach_eq_splice : ∀ (ns : List Yaml) (idx : Nat) (steps : List Yaml),
    idx ≤ steps.length →
    insertEach idx ns steps = steps.take idx ++ ns ++ steps.drop idx := by
  intro ns
  induction ns with
  | nil => intro idx steps h; simp [insertEach]
  | cons n rest ih =>
      intro idx steps h
      have step1 : insertEach idx (n :: rest) steps = insertAt idx n (insertEach idx rest steps) := by
        simp [insertEach, List.foldl_append]
      have hlen : (steps.take idx).length = idx := by
        rw [List.length_take]
        exact Nat.min_eq_left h
      have hle : idx ≤ (steps.take idx ++ (rest ++ steps.drop idx)).length := by
        rw [List.length_append, hlen]
        omega
      rw [step1, ih idx steps h, List.append_assoc, insertAt_eq_splice idx n _ hle,
          List.take_left' hlen, List.drop_left' hlen]
      simp

theorem exceptBind_error {α β : Type} (e : String) (g : α → Except String β) :
    ((Except.error e : Except String α) >>= g) = Except.error e := rfl

theorem afterBuildIndexAux_le : ∀ (steps : List Yaml) (i acc r : Nat),
    acc ≤ i + steps.length → afterBuildIndexAux i acc steps = .ok r →
    r ≤ i + steps.length := by
  intro steps
  induction steps with
  | nil =>
      intro i acc r hacc h
      simp only [afterBuildIndexAux] at h
      cases h
      simpa using hacc
  | cons st rest ih =>
      intro i acc r hacc h
      simp only [afterBuildIndexAux] at h
      cases hb : stepKeywordMatch st with
      | error e =>
          rw [hb] at h
          simp only [exceptBind_error] at h
          cases h
      | ok m =>
          rw [hb, exceptBind_ok] at h
          have hacc2 : (if m then i + 1 else acc) ≤ (i + 1) + rest.length := by
            rw [List.length_cons] at hacc
            cases m
            · simp only [Bool.false_eq_true, if_false]
              omega
            · simp only [if_true]
              omega
          have hr := ih (i + 1) (if m then i + 1 else acc) r hacc2 h
          rw [List.length_cons]
          omega

/-- C8 counterexample: the claim says that whenever insert_after names a
job present in the document the new job is placed immediately after that
job, for any such insert_after.  The source guards the placement branch
with the truthiness of insert_after itself, so the empty string, although
it can name an existing job, always takes the append branch: with jobs
keyed by the empty string and b, merging job n with insert_after the
empty string appends n at the end instead of placing it right after the
empty-string job. -/
theorem c8_counterexample :
    containsKey [(Yaml.str "", Yaml.null), (Yaml.str "b", Yaml.null)] (.str "") = true ∧
    merge_job_into_workflow
      (.map [(.str "jobs", .map [(.str "", .null), (.str "b", .null)])])
      (.map [(.str "x", .null), (.str "y", .null)]) "n" (some "") =
    .ok (.map [(.str "jobs", .map [(.str "", .null), (.str "b", .null),
      (.str "n", .map [(.str "x", .null), (.str "y", .null)])])]) ∧
    (Yaml.map [(.str "", .null), (.str "b", .null),
       (.str "n", .map [(.str "x", .null), (.str "y", .null)])]) ≠
      (Yaml.map [(.str "", .null),
       (.str "n", .map [(.str "x", .null), (.str "y", .null)]), (.str "b", .null)]) :=
  ⟨rfl, rfl, yamlBeq_false_iff.mp (by rfl)⟩

/-- C8 amended: when insert_after names an existing job under a nonempty
id and the new id is fresh, merge_job places the new job immediately after
that job; when insert_after is absent or names no existing job, the new
job is appended at the end of the jobs mapping, all other jobs keeping
their order and content; and because the branch condition tests the
truthiness of insert_after itself, an empty-string insert_after always
appends at the end, even when a job with the empty-string id exists. -/
theorem c8_insert_after_placement :
    (∀ (es pre suf : List (Yaml × Yaml)) (v f : Yaml) (job_id ia : String),
      lookup es (.str "jobs") = some (.map (pre ++ (.str ia, v) :: suf)) →
      NodupKeys (pre ++ (.str ia, v) :: suf) →
      containsKey (pre ++ (.str ia, v) :: suf) (.str job_id) = false →
      containsKey pre (.str ia) = false → ia ≠ "" →
      merge_job_into_workflow (.map es) f job_id (some ia) =
        .ok (.map (setKey es (.str "jobs")
          (.map (pre ++ (.str ia, v) :: (.str job_id, unwrapJobFragment f) :: suf))))) ∧
    (∀ (es js : List (Yaml × Yaml)) (f : Yaml) (job_id : String),
      lookup es (.str "jobs") = some (.map js) →
      containsKey js (.str job_id) = false →
      merge_job_into_workflow (.map es) f job_id none =
        .ok (.map (setKey es (.str "jobs")
          (.map (js ++ [(.str job_id, unwrapJobFragment f)]))))) ∧
    (∀ (es js : List (Yaml × Yaml)) (f : Yaml) (job_id ia : String),
      lookup es (.str "jobs") = some (.map js) →
      containsKey js (.str job_id) = false →
      containsKey js (.str ia) = false →
      merge_job_into_workflow (.map es) f job_id (some ia) =
        .ok (.map (setKey es (.str "jobs")
          (.map (js ++ [(.str job_id, unwrapJobFragment f)]))))) ∧
    (∀ (es js : List (Yaml × Yaml)) (f : Yaml) (job_id : String),
      lookup es (.str "jobs") = some (.map js) →
      containsKey js (.str job_id) = false →
      merge_job_into_workflow (.map es) f job_id (some "") =
        .ok (.map (setKey es (.str "jobs")
          (.map (js ++ [(.str job_id, unwrapJobFragment f)]))))) := by
  refine ⟨?_, ?_, ?_, ?_⟩
  · intro es pre suf v f job_id ia hjobs hnd hfresh hpre hia
    have hck : containsKey es (.str "jobs") = true := containsKey_of_lookup hjobs
    have hmem : containsKey (pre ++ (Yaml.str ia, v) :: suf) (.str ia) = true := by
      simp [containsKey_append, containsKey, yamlBeq_refl]
    have hbn := @buildNewJobs_split pre suf (.str ia) v (.str job_id)
      (unwrapJobFragment f) hpre hfresh hnd
    simp only [merge_job_into_workflow, hck, if_true, hjobs]
    rw [if_pos ⟨hia, hmem⟩, hbn]
  · intro es js f job_id hjobs hfresh
    have hck : containsKey es (.str "jobs") = true := containsKey_of_lookup hjobs
    simp only [merge_job_into_workflow, hck, if_true, hjobs]
    rw [setKey_not_mem hfresh]
  · intro es js f job_id ia hjobs hfresh hianot
    have hck : containsKey es (.str "jobs") = true := containsKey_of_lookup hjobs
    simp only [merge_job_into_workflow, hck, if_true, hjobs]
    rw [if_neg (by
      rintro ⟨_, hc⟩
      rw [hianot] at hc
      exact absurd hc (by simp))]
    rw [setKey_not_mem hfresh]
  · intro es js f job_id hjobs hfresh
    have hck : containsKey es (.str "jobs") = true := containsKey_of_lookup hjobs
    simp only [merge_job_into_workflow, hck, if_true, hjobs]
    rw [if_neg (by rintro ⟨hne, _⟩; exact hne rfl)]
    rw [setKey_not_mem hfresh]

/-- C8 witness: placing a fresh job n immediately after job a in a
two-job document. -/
theorem c8_witness :
    merge_job_into_workflow
      (.map [(.str "jobs", .map [(.str "a", .null), (.str "b", .null)])])
      (.map [(.str "x", .null), (.str "y", .null)]) "n" (some "a") =
    .ok (.map (setKey [(.str "jobs", .map [(.str "a", .null), (.str "b", .null)])]
      (.str "jobs")
      (.map ([] ++ (Yaml.str "a", Yaml.null) ::
        (Yaml.str "n",
          unwrapJobFragment (.map [(.str "x", .null), (.str "y", .null)])) ::
        [(Yaml.str "b", Yaml.null)])))) :=
  c8_insert_after_placement.1
    [(.str "jobs", .map [(.str "a", .null), (.str "b", .null)])]
    [] [(Yaml.str "b", Yaml.null)] Yaml.null
    (.map [(.str "x", .null), (.str "y", .null)]) "n" "a"
    rfl (by simp [NodupKeys, keysOf]) rfl rfl (by simp)

theorem mapM_ok_length {α β : Type} (g : α → Except String β) :
    ∀ {l : List α} {out : List β}, l.mapM g = .ok out → out.length = l.length := by
  intro l
  induction l with
  | nil =>
      intro out h
      have h2 : (Except.ok ([] : List β) : Except String (List β)) = .ok out := h
      cases h2
      rfl
  | cons a rest ih =>
      intro out h
      rw [List.mapM_cons] at h
      cases hb : g a with
      | error e => rw [hb, exceptBind_error] at h; cases h
      | ok b =>
          rw [hb, exceptBind_ok] at h
          cases hr : rest.mapM g with
          | error e => rw [hr, exceptBind_error] at h; cases h
          | ok bs =>
              rw [hr, exceptBind_ok] at h
              have h2 : (Except.ok (b :: bs) : Except String (List β)) = .ok out := h
              cases h2
              simp [ih hr]

theorem afterBuildIndexAux_spec : ∀ (steps : List Yaml) (flags : List Bool) (i acc : Nat),
    steps.mapM stepKeywordMatch = .ok flags →
    afterBuildIndexAux i acc steps =
      .ok (match specLastKeywordIdx flags with
           | some m => i + m + 1
           | none => acc) := by
  intro steps
  induction steps with
  | nil =>
      intro flags i acc h
      have h2 : (Except.ok ([] : List Bool) : Except String (List Bool)) = .ok flags := h
      cases h2
      rfl
  | cons st rest ih =>
      intro flags i acc h
      rw [List.mapM_cons] at h
      cases hb : stepKeywordMatch st with
      | error e => rw [hb, exceptBind_error] at h; cases h
      | ok b =>
          rw [hb, exceptBind_ok] at h
          cases hr : rest.mapM stepKeywordMatch with
          | error e => rw [hr, exceptBind_error] at h; cases h
          | ok bs =>
              rw [hr, exceptBind_ok] at h
              have h2 : (Except.ok (b :: bs) : Except String (List Bool)) = .ok flags := h
              cases h2
              simp only [afterBuildIndexAux, hb, exceptBind_ok]
              rw [ih bs (i + 1) (if b then i + 1 else acc) hr]
              cases hs : specLastKeywordIdx bs with
              | some m =>
                  simp only [specLastKeywordIdx, hs]
                  congr 1
                  omega
              | none =>
                  simp only [specLastKeywordIdx, hs]
                  cases b <;> rfl

theorem specLastKeywordIdx_lt : ∀ {flags : List Bool} {m : Nat},
    specLastKeywordIdx flags = some m → m < flags.length := by
  intro flags
  induction flags with
  | nil => intro m h; simp [specLastKeywordIdx] at h
  | cons b rest ih =>
      intro m h
      simp only [specLastKeywordIdx] at h
      cases hs : specLastKeywordIdx rest with
      | some k =>
          rw [hs] at h
          cases h
          exact Nat.succ_lt_succ (ih hs)
      | none =>
          rw [hs] at h
          cases b
          · simp at h
          · simp only [if_true] at h
            cases h
            simp

theorem insert_step_reduces (es js body : List (Yaml × Yaml)) (steps ns : List Yaml)
    (frag : Yaml) (tj pos : String) (steps2 : List Yaml)
    (hjobs : lookup es (.str "jobs") = some (.map js))
    (hjob : lookup js (.str tj) = some (.map body))
    (hsteps : lookup body (.str "steps") = some (.seq steps))
    (hfrag : stepFragList frag = .ok ns)
    (hbranch : (if pos = "end" then Except.ok (steps ++ ns)
                else if pos = "after_build" then do
                  let idx ← afterBuildIndex steps
                  Except.ok (insertEach idx ns steps)
                else if pos = "before_end" then
                  Except.ok (insertEach (steps.length - 1) ns steps)
                else Except.ok (steps ++ ns)) = .ok steps2) :
    insert_step_into_job (.map es) frag tj pos =
      .ok (.map (setKey es (.str "jobs") (.map (setKey js (.str tj)
        (.map (setKey body (.str "steps") (.seq steps2))))))) := by
  have hckb : containsKey body (.str "steps") = true := containsKey_of_lookup hsteps
  simp only [insert_step_into_job, hfrag, exceptBind_ok, hjobs, hjob, hckb, if_true, hsteps]
  split_ifs with h1 h2 h3
  · rw [if_pos h1] at hbranch
    cases hbranch
    rfl
  · rw [if_neg h1, if_pos h2] at hbranch
    cases hix : afterBuildIndex steps with
    | error e =>
        rw [hix, exceptBind_error] at hbranch
        cases hbranch
    | ok idx =>
        rw [hix, exceptBind_ok] at hbranch
        cases hbranch
        rfl
  · rw [if_neg h1, if_neg h2, if_pos h3] at hbranch
    cases hbranch
    rfl
  · rw [if_neg h1, if_neg h2, if_neg h3] at hbranch
    cases hbranch
    rfl

/-- C7: merge non-interference.  With a fresh job id, merge_job returns the
document with the jobs mapping split around the single new entry, so every
pre-existing job keeps its content and relative order; with an existing
target job, insert_step returns the document in which only the steps list
of the target job changed, the original steps splitting around the
inserted fragment, so every pre-existing job and step keeps its content
and relative order. -/
theorem c7_merge_noninterference :
    (∀ (es js : List (Yaml × Yaml)) (f : Yaml) (job_id : String) (ia : Option String),
      lookup es (.str "jobs") = some (.map js) → NodupKeys js →
      containsKey js (.str job_id) = false →
      ∃ pre suf, js = pre ++ suf ∧
        merge_job_into_workflow (.map es) f job_id ia =
          .ok (.map (setKey es (.str "jobs")
            (.map (pre ++ (Yaml.str job_id, unwrapJobFragment f) :: suf))))) ∧
    (∀ (es js body : List (Yaml × Yaml)) (steps ns : List Yaml) (frag : Yaml)
       (tj pos : String),
      lookup es (.str "jobs") = some (.map js) →
      lookup js (.str tj) = some (.map body) →
      lookup body (.str "steps") = some (.seq steps) →
      stepFragList frag = .ok ns →
      (pos = "after_build" → ∃ flags, steps.mapM stepKeywordMatch = .ok flags) →
      ∃ k, k ≤ steps.length ∧
        insert_step_into_job (.map es) frag tj pos =
          .ok (.map (setKey es (.str "jobs") (.map (setKey js (.str tj)
            (.map (setKey body (.str "steps")
              (.seq (steps.take k ++ ns ++ steps.drop k))))))))) := by
  constructor
  · intro es js f job_id ia hjobs hnd hfresh
    have hck : containsKey es (.str "jobs") = true := containsKey_of_lookup hjobs
    cases ia with
    | none =>
        refine ⟨js, [], by simp, ?_⟩
        simp only [merge_job_into_workflow, hck, if_true, hjobs]
        rw [setKey_not_mem hfresh]
    | some ia =>
        by_cases hcond : ia ≠ "" ∧ containsKey js (.str ia) = true
        · obtain ⟨pre0, v, suf0, hsplit, hpre0, hset⟩ := setKey_mem_split hcond.2 Yaml.null
          subst hsplit
          refine ⟨pre0 ++ [(Yaml.str ia, v)], suf0, by simp, ?_⟩
          have hbn := @buildNewJobs_split pre0 suf0 (.str ia) v (.str job_id)
            (unwrapJobFragment f) hpre0 hfresh hnd
          simp only [merge_job_into_workflow, hck, if_true, hjobs]
          rw [if_pos hcond, hbn]
          simp
        · refine ⟨js, [], by simp, ?_⟩
          simp only [merge_job_into_workflow, hck, if_true, hjobs]
          rw [if_neg hcond, setKey_not_mem hfresh]
  · intro es js body steps ns frag tj pos hjobs hjob hsteps hfrag hab
    by_cases hend : pos = "end"
    · subst hend
      refine ⟨steps.length, Nat.le_refl _, ?_⟩
      have hred := insert_step_reduces es js body steps ns frag tj "end" (steps ++ ns)
        hjobs hjob hsteps hfrag (by simp)
      rw [hred]
      simp
    · by_cases habq : pos = "after_build"
      · subst habq
        obtain ⟨flags, hflags⟩ := hab rfl
        have hlen : flags.length = steps.length := mapM_ok_length stepKeywordMatch hflags
        have hspec : afterBuildIndex steps = .ok (match specLastKeywordIdx flags with
            | some m => 0 + m + 1
            | none => steps.length) :=
          afterBuildIndexAux_spec steps flags 0 steps.length hflags
        have hidx_le : (match specLastKeywordIdx flags with
            | some m => 0 + m + 1
            | none => steps.length) ≤ steps.length := by
          cases hs : specLastKeywordIdx flags with
          | some m =>
              have hlt := specLastKeywordIdx_lt hs
              rw [hlen] at hlt
              show 0 + m + 1 ≤ steps.length
              omega
          | none => exact Nat.le_refl _
        refine ⟨_, hidx_le, ?_⟩
        have hred := insert_step_reduces es js body steps ns frag tj "after_build"
          (insertEach (match specLastKeywordIdx flags with
            | some m => 0 + m + 1
            | none => steps.length) ns steps)
          hjobs hjob hsteps hfrag (by
            rw [if_neg (by decide), if_pos rfl, hspec, exceptBind_ok])
        rw [hred, insertEach_eq_splice _ _ steps hidx_le]
      · by_cases hbe : pos = "before_end"
        · subst hbe
          refine ⟨steps.length - 1, Nat.sub_le _ _, ?_⟩
          have hred := insert_step_reduces es js body steps ns frag tj "before_end"
            (insertEach (steps.length - 1) ns steps) hjobs hjob hsteps hfrag (by
              rw [if_neg (by decide), if_neg (by decide), if_pos rfl])
          rw [hred, insertEach_eq_splice _ _ steps (Nat.sub_le _ _)]
        · refine ⟨steps.length, Nat.le_refl _, ?_⟩
          have hred := insert_step_reduces es js body steps ns frag tj pos (steps ++ ns)
            hjobs hjob hsteps hfrag (by
              rw [if_neg hend, if_neg habq, if_neg hbe])
          rw [hred]
          simp

/-- C7 witness: merging a fresh job into a one-job document and inserting
a one-step fragment at the end of its only job both leave the existing
content split-preserved. -/
theorem c7_witness :
    (∃ pre suf, ([(Yaml.str "a", Yaml.null)] : List (Yaml × Yaml)) = pre ++ suf ∧
      merge_job_into_workflow (.map [(.str "jobs", .map [(.str "a", .null)])])
        (.map [(.str "x", .null), (.str "y", .null)]) "n" none =
        .ok (.map (setKey [(.str "jobs", .map [(.str "a", .null)])] (.str "jobs")
          (.map (pre ++ (Yaml.str "n",
            unwrapJobFragment (.map [(.str "x", .null), (.str "y", .null)])) :: suf))))) ∧
    (∃ k, k ≤ ([stepA] : List Yaml).length ∧
      insert_step_into_job (.map [(.str "jobs",
          .map [(.str "j", .map [(.str "steps", .seq [stepA])])])])
        (.seq [stepB]) "j" "end" =
        .ok (.map (setKey [(.str "jobs", .map [(.str "j", .map [(.str "steps", .seq [stepA])])])]
          (.str "jobs") (.map (setKey [(.str "j", .map [(.str "steps", .seq [stepA])])] (.str "j")
            (.map (setKey [(.str "steps", .seq [stepA])] (.str "steps")
              (.seq (([stepA] : List Yaml).take k ++ [stepB] ++ ([stepA] : List Yaml).drop k))))))))) :=
  ⟨c7_merge_noninterference.1 [(.str "jobs", .map [(.str "a", .null)])]
      [(Yaml.str "a", Yaml.null)] (.map [(.str "x", .null), (.str "y", .null)]) "n" none
      rfl (by simp [NodupKeys, keysOf]) rfl,
   c7_merge_noninterference.2 [(.str "jobs", .map [(.str "j", .map [(.str "steps", .seq [stepA])])])]
      [(.str "j", .map [(.str "steps", .seq [stepA])])] [(.str "steps", .seq [stepA])]
      [stepA] [stepB] (.seq [stepB]) "j" "end"
      rfl rfl rfl rfl (by intro h; exact absurd h (by decide))⟩

/-- C4: insert_step with position after_build inserts the fragment at
index m + 1 where m is the index of the last step matching the build
keyword family (per stepKeywordMatch over name and run), appends when no
step matches, and with position before_end inserts immediately before the
final step (index length - 1, which is 0 for zero or one steps); the
fragment keeps its own order in every case, as the splice shape shows. -/
theorem c4_insert_step_positions
    (es js body : List (Yaml × Yaml)) (steps ns : List Yaml) (frag : Yaml)
    (tj : String) (flags : List Bool)
    (hjobs : lookup es (.str "jobs") = some (.map js))
    (hjob : lookup js (.str tj) = some (.map body))
    (hsteps : lookup body (.str "steps") = some (.seq steps))
    (hfrag : stepFragList frag = .ok ns)
    (hflags : steps.mapM stepKeywordMatch = .ok flags) :
    (insert_step_into_job (.map es) frag tj "after_build" =
      .ok (.map (setKey es (.str "jobs") (.map (setKey js (.str tj)
        (.map (setKey body (.str "steps") (.seq
          (match specLastKeywordIdx flags with
           | some m => steps.take (m + 1) ++ ns ++ steps.drop (m + 1)
           | none => steps ++ ns))))))))) ∧
    (insert_step_into_job (.map es) frag tj "before_end" =
      .ok (.map (setKey es (.str "jobs") (.map (setKey js (.str tj)
        (.map (setKey body (.str "steps") (.seq
          (steps.take (steps.length - 1) ++ ns ++
            steps.drop (steps.length - 1)))))))))) := by
  have hlen : flags.length = steps.length := mapM_ok_length stepKeywordMatch hflags
  have hspec := afterBuildIndexAux_spec steps flags 0 steps.length hflags
  constructor
  · cases hs : specLastKeywordIdx flags with
    | some m =>
        have hlt := specLastKeywordIdx_lt hs
        rw [hlen] at hlt
        have hspec2 : afterBuildIndex steps = .ok (0 + m + 1) := by
          show afterBuildIndexAux 0 steps.length steps = _
          rw [hspec, hs]
        have hred := insert_step_reduces es js body steps ns frag tj "after_build"
          (insertEach (0 + m + 1) ns steps) hjobs hjob hsteps hfrag (by
            rw [if_neg (by decide), if_pos rfl, hspec2, exceptBind_ok])
        rw [hred, insertEach_eq_splice _ _ steps (by omega)]
        simp [Nat.zero_add]
    | none =>
        have hspec2 : afterBuildIndex steps = .ok steps.length := by
          show afterBuildIndexAux 0 steps.length steps = _
          rw [hspec, hs]
        have hred := insert_step_reduces es js body steps ns frag tj "after_build"
          (insertEach steps.length ns steps) hjobs hjob hsteps hfrag (by
            rw [if_neg (by decide), if_pos rfl, hspec2, exceptBind_ok])
        rw [hred, insertEach_eq_splice _ _ steps (Nat.le_refl _)]
        simp
  · have hred := insert_step_reduces es js body steps ns frag tj "before_end"
      (insertEach (steps.length - 1) ns steps) hjobs hjob hsteps hfrag (by
        rw [if_neg (by decide), if_neg (by decide), if_pos rfl])
    rw [hred, insertEach_eq_splice _ _ steps (Nat.sub_le _ _)]

/-- C4 witness: the sample workflow of test_step_insertion.py, whose last
keyword-matching step is the test step at index 4, so the security step
lands at index 5 for after_build and at index 4 for before_end. -/
theorem c4_witness :
    (insert_step_into_job c4wf (.seq [polarisStep]) "build" "after_build" =
      .ok (.map (setKey [(.str "jobs", .map [(.str "build", .map [(.str "steps", .seq c4steps)])])]
        (.str "jobs") (.map (setKey [(.str "build", .map [(.str "steps", .seq c4steps)])] (.str "build")
          (.map (setKey [(.str "steps", .seq c4steps)] (.str "steps") (.seq
            (match specLastKeywordIdx [false, false, false, true, true] with
             | some m => c4steps.take (m + 1) ++ [polarisStep] ++ c4steps.drop (m + 1)
             | none => c4steps ++ [polarisStep]))))))))) ∧
    (insert_step_into_job c4wf (.seq [polarisStep]) "build" "before_end" =
      .ok (.map (setKey [(.str "jobs", .map [(.str "build", .map [(.str "steps", .seq c4steps)])])]
        (.str "jobs") (.map (setKey [(.str "build", .map [(.str "steps", .seq c4steps)])] (.str "build")
          (.map (setKey [(.str "steps", .seq c4steps)] (.str "steps") (.seq
            (c4steps.take (c4steps.length - 1) ++ [polarisStep] ++
              c4steps.drop (c4steps.length - 1)))))))))) :=
  c4_insert_step_positions
    [(.str "jobs", .map [(.str "build", .map [(.str "steps", .seq c4steps)])])]
    [(.str "build", .map [(.str "steps", .seq c4steps)])]
    [(.str "steps", .seq c4steps)] c4steps [polarisStep] (.seq [polarisStep])
    "build" [false, false, false, true, true] rfl rfl rfl rfl rfl

theorem some_or_eq {α : Type} (a : α) (d : Option α) : (some a).or d = some a := rfl

theorem or_if_none {α : Type} (c : Bool) (a : α) (d : Option α) :
    (if c then some a else none).or d = if c then some a else d := by
  cases c <;> rfl

theorem getLast?_cons_or {α : Type} (a : α) (l : List α) :
    (a :: l).getLast? = (l.getLast?).or (some a) := by
  induction l generalizing a with
  | nil => rfl
  | cons b t ih =>
      rw [List.getLast?_cons_cons, ih b]
      cases ht : t.getLast? <;> rfl

theorem specLastJobWhere_cons (p : String → Bool) (j : Yaml) (t : String)
    (rst : List (Yaml × String)) :
    specLastJobWhere p ((j, t) :: rst) =
      (specLastJobWhere p rst).or (if p t then some j else none) := by
  cases hs : specLastJobWhere p rst <;> simp [specLastJobWhere, hs, Option.or]

theorem scanJobs_spec : ∀ (jobs : List (Yaml × WorkflowJob)) (texts : List String)
    (b0 t0 l0 : Option Yaml),
    jobs.mapM (fun p => jobRunText p.2) = .ok texts →
    scanJobs jobs b0 t0 l0 = .ok
      ((specLastJobWhere matchesBuildPatterns ((jobs.map Prod.fst).zip texts)).or b0,
       (specLastJobWhere matchesTestPatterns ((jobs.map Prod.fst).zip texts)).or t0,
       ((jobs.map Prod.fst).getLast?).or l0) := by
  intro jobs
  induction jobs with
  | nil =>
      intro texts b0 t0 l0 h
      have h2 : (Except.ok ([] : List String) : Except String (List String)) = .ok texts := h
      cases h2
      rfl
  | cons p rest ih =>
      intro texts b0 t0 l0 h
      obtain ⟨jid, job⟩ := p
      simp only [List.mapM_cons] at h
      cases hb : jobRunText job with
      | error e => rw [hb, exceptBind_error] at h; cases h
      | ok txt =>
          rw [hb, exceptBind_ok] at h
          cases hr : rest.mapM (fun p => jobRunText p.2) with
          | error e => rw [hr, exceptBind_error] at h; cases h
          | ok ts =>
              rw [hr, exceptBind_ok] at h
              have h2 : (Except.ok (txt :: ts) : Except String (List String)) = .ok texts := h
              cases h2
              simp only [scanJobs, hb, exceptBind_ok]
              rw [ih ts _ _ _ hr]
              refine congrArg Except.ok ?_
              simp only [List.map_cons, List.zip_cons_cons, specLastJobWhere_cons,
                getLast?_cons_or]
              rw [Option.or_assoc, Option.or_assoc, Option.or_assoc,
                or_if_none, or_if_none, some_or_eq]

/-- C3 counterexample: the claim states the test anchor is the last job
whose classification includes test and which is distinct from the build
anchor, so the document with job j1 (tests only) followed by job j2
(build and test) should offer an after_test candidate anchored at j1.  The
code takes the last test-classified job overall, which is j2 itself, and
suppresses the candidate because it coincides with the build anchor: no
after_test point is emitted at all. -/
theorem c3_counterexample :
    find_insertion_points ⟨.str "w", .map [], c3jobs, .null, .null⟩ =
      .ok [⟨"after_build", some (.str "j2"),
            "Security scanning should run after build to analyze compiled code"⟩,
           ⟨"end", some (.str "j2"),
            "Security scanning will run at the end of the workflow"⟩] ∧
    matchesTestPatterns "mvn test" = true ∧
    (Yaml.str "j1") ≠ (Yaml.str "j2") :=
  ⟨rfl, rfl, yamlBeq_false_iff.mp (by rfl)⟩

/-- C3 amended: the build anchor is the last job in document order whose
joined lowercased run text matches a build pattern, the test anchor is the
last job whose joined text matches a test pattern regardless of the build
anchor, and the planner emits after_build at the build anchor when one
exists (and its id is truthy), then after_test at the test anchor only
when it exists and differs from the build anchor, then the end point at
the last job, or the standalone first-job marker when there is none. -/
theorem c3_amended_planner (nm tr ev df : Yaml) (jobs : List (Yaml × WorkflowJob))
    (texts : List String)
    (hscan : jobs.mapM (fun p => jobRunText p.2) = .ok texts) :
    find_insertion_points ⟨nm, tr, jobs, ev, df⟩ = .ok
      ((if optTruthy (specLastJobWhere matchesBuildPatterns ((jobs.map Prod.fst).zip texts)) then
          [⟨"after_build", specLastJobWhere matchesBuildPatterns ((jobs.map Prod.fst).zip texts),
            "Security scanning should run after build to analyze compiled code"⟩]
        else []) ++
       (if optTruthy (specLastJobWhere matchesTestPatterns ((jobs.map Prod.fst).zip texts)) &&
           !optJobBeq (specLastJobWhere matchesTestPatterns ((jobs.map Prod.fst).zip texts))
             (specLastJobWhere matchesBuildPatterns ((jobs.map Prod.fst).zip texts)) then
          [⟨"after_test", specLastJobWhere matchesTestPatterns ((jobs.map Prod.fst).zip texts),
            "Security scanning can run in parallel with or after tests"⟩]
        else []) ++
       (if optTruthy ((jobs.map Prod.fst).getLast?) then
          [⟨"end", (jobs.map Prod.fst).getLast?,
            "Security scanning will run at the end of the workflow"⟩]
        else [⟨"end", none, "Security scanning will be the first job"⟩])) := by
  have hsj := scanJobs_spec jobs texts none none none hscan
  rw [Option.or_none, Option.or_none, Option.or_none] at hsj
  simp only [find_insertion_points, hsj, exceptBind_ok]
  split_ifs <;> simp_all

/-- C3 witness: the amended planner theorem applied to the two-job
document of the counterexample. -/
theorem c3_witness :
    find_insertion_points ⟨.str "w", .map [], c3jobs, .null, .null⟩ = .ok
      ((if optTruthy (specLastJobWhere matchesBuildPatterns
          ((c3jobs.map Prod.fst).zip ["mvn test", "mvn package mvn test"])) then
          [⟨"after_build", specLastJobWhere matchesBuildPatterns
              ((c3jobs.map Prod.fst).zip ["mvn test", "mvn package mvn test"]),
            "Security scanning should run after build to analyze compiled code"⟩]
        else []) ++
       (if optTruthy (specLastJobWhere matchesTestPatterns
            ((c3jobs.map Prod.fst).zip ["mvn test", "mvn package mvn test"])) &&
           !optJobBeq (specLastJobWhere matchesTestPatterns
              ((c3jobs.map Prod.fst).zip ["mvn test", "mvn package mvn test"]))
             (specLastJobWhere matchesBuildPatterns
              ((c3jobs.map Prod.fst).zip ["mvn test", "mvn package mvn test"])) then
          [⟨"after_test", specLastJobWhere matchesTestPatterns
              ((c3jobs.map Prod.fst).zip ["mvn test", "mvn package mvn test"]),
            "Security scanning can run in parallel with or after tests"⟩]
        else []) ++
       (if optTruthy ((c3jobs.map Prod.fst).getLast?) then
          [⟨"end", (c3jobs.map Prod.fst).getLast?,
            "Security scanning will run at the end of the workflow"⟩]
        else [⟨"end", none, "Security scanning will be the first job"⟩])) :=
  c3_amended_planner (.str "w") (.map []) .null .null c3jobs
    ["mvn test", "mvn package mvn test"] rfl

theorem all_perm {α : Type} {l l' : List α} (h : l.Perm l') (p : α → Bool) :
    l.all p = l'.all p := by
  rw [Bool.eq_iff_iff]
  simp only [List.all_eq_true]
  exact ⟨fun H x hx => H x (h.mem_iff.mpr hx), fun H x hx => H x (h.mem_iff.mp hx)⟩

theorem any_perm {α : Type} {l l' : List α} (h : l.Perm l') (p : α → Bool) :
    l.any p = l'.any p := by
  rw [Bool.eq_iff_iff]
  simp only [List.any_eq_true]
  exact ⟨fun ⟨x, hx, hp⟩ => ⟨x, h.mem_iff.mp hx, hp⟩,
         fun ⟨x, hx, hp⟩ => ⟨x, h.mem_iff.mpr hx, hp⟩⟩

theorem all_ext {α : Type} (l : List α) (p q : α → Bool) (h : ∀ x, p x = q x) :
    l.all p = l.all q := by
  rw [show p = q from funext h]

theorem pyEq_iff {a b : Yaml} : pyEq a b = true ↔ canonPy a = canonPy b := by
  unfold pyEq
  exact yamlBeq_iff

theorem pyNodupKeys_perm {b b' : List (Yaml × Yaml)} (h : b.Perm b') (hn : PyNodupKeys b) :
    PyNodupKeys b' := (((h.map Prod.fst).map canonPy).nodup_iff).mp hn

theorem pyNodupKeys_tail {e : Yaml × Yaml} {l : List (Yaml × Yaml)}
    (h : PyNodupKeys (e :: l)) : PyNodupKeys l := by
  have hx : canonPy e.1 ∉ (List.map Prod.fst l).map canonPy ∧
      ((List.map Prod.fst l).map canonPy).Nodup := by
    simpa [PyNodupKeys, keysOf, List.nodup_cons] using h
  exact hx.2

theorem pyLookup_perm {b b' : List (Yaml × Yaml)} (h : b.Perm b') :
    PyNodupKeys b → ∀ k, pyLookup b k = pyLookup b' k := by
  induction h with
  | nil => intro _ _; rfl
  | cons x h ih =>
      intro hnd k
      obtain ⟨k1, v1⟩ := x
      simp only [pyLookup]
      by_cases hb : pyEq k1 k = true
      · simp [hb]
      · simp only [Bool.not_eq_true] at hb
        simp only [hb, Bool.false_eq_true, if_false]
        exact ih (pyNodupKeys_tail hnd) k
  | swap x y l =>
      intro hnd k
      obtain ⟨k1, v1⟩ := x
      obtain ⟨k2, v2⟩ := y
      have hnd2 : (canonPy k2 :: canonPy k1 :: (l.map Prod.fst).map canonPy).Nodup := hnd
      rw [List.nodup_cons] at hnd2
      have hne : ¬ canonPy k2 = canonPy k1 := by
        intro he
        exact hnd2.1 (by rw [he]; exact List.mem_cons_self _ _)
      simp only [pyLookup]
      by_cases h1 : pyEq k2 k = true <;> by_cases h2 : pyEq k1 k = true
      · exact absurd ((pyEq_iff.mp h1).trans (pyEq_iff.mp h2).symm) hne
      · simp [h1, h2]
      · simp [h1, h2]
      · simp [h1, h2]
  | trans h1 h2 ih1 ih2 =>
      intro hnd k
      rw [ih1 hnd k, ih2 (pyNodupKeys_perm h1 hnd) k]

theorem compareByKeys_eq_all (a b : List (Yaml × Yaml)) :
    compareByKeys a b =
      a.all (fun p => compare_yaml_structures p.2 ((pyLookup b p.1).getD .null)) := by
  induction a with
  | nil => rfl
  | cons e rest ih =>
      obtain ⟨k, v⟩ := e
      simp [compareByKeys, List.all_cons, ih]

theorem sameKeySet_perm_left {a a' : List (Yaml × Yaml)} (b : List (Yaml × Yaml))
    (h : a.Perm a') : sameKeySet a b = sameKeySet a' b := by
  unfold sameKeySet
  have hk : (keysOf a).Perm (keysOf a') := h.map Prod.fst
  rw [all_perm hk]
  have h2 : ((keysOf b).all fun k => (keysOf a).any fun k2 => pyEq k2 k) =
      ((keysOf b).all fun k => (keysOf a').any fun k2 => pyEq k2 k) :=
    all_ext _ _ _ (fun k => any_perm hk _)
  rw [h2]

theorem sameKeySet_perm_right (a : List (Yaml × Yaml)) {b b' : List (Yaml × Yaml)}
    (h : b.Perm b') : sameKeySet a b = sameKeySet a b' := by
  unfold sameKeySet
  have hk : (keysOf b).Perm (keysOf b') := h.map Prod.fst
  rw [all_perm hk]
  have h2 : ((keysOf a).all fun k => (keysOf b).any fun k2 => pyEq k2 k) =
      ((keysOf a).all fun k => (keysOf b').any fun k2 => pyEq k2 k) :=
    all_ext _ _ _ (fun k => any_perm hk _)
  rw [h2]

/-- C5 counterexample: the claim states a match is reported for J exactly
when J is deep-structurally equal to F.  The falsy-template guard breaks
the only-if direction: an empty mapping fragment is falsy, so nothing is
reported even though the job a, itself an empty mapping, is
deep-structurally equal to it. -/
theorem c5_counterexample :
    detect_job_duplicates (.ok (.map [(.str "jobs", .map [(.str "a", .map [])])]))
      (.ok (.map [])) = [] ∧
    compare_yaml_structures (.map []) (.map []) = true :=
  ⟨rfl, rfl⟩

/-- C5 amended: provided the fragment is a mapping with at least one key,
detect_job_duplicates reports exactly the jobs the source comparator finds
equal to the fragment; the comparison of mappings is invariant under
permuting the entries of either side (the second side dict-like up to
Python key equality), while reordering a sequence changes the outcome, as
the two-step example shows; and because Python set equality and dict
lookup compare keys with ==, the comparator identifies the key 1 with the
key True even though it never identifies the values 1 and True. -/
theorem c5_amended_detector :
    (∀ (es js ts : List (Yaml × Yaml)) (jn : Yaml),
      lookup es (.str "jobs") = some (.map js) → ts ≠ [] →
      (jn ∈ detect_job_duplicates (.ok (.map es)) (.ok (.map ts)) ↔
        ∃ body, (jn, body) ∈ js ∧ compare_yaml_structures body (.map ts) = true)) ∧
    (∀ (a a' b : List (Yaml × Yaml)), a.Perm a' →
      compare_yaml_structures (.map a) (.map b) =
        compare_yaml_structures (.map a') (.map b)) ∧
    (∀ (a b b' : List (Yaml × Yaml)), PyNodupKeys b → b.Perm b' →
      compare_yaml_structures (.map a) (.map b) =
        compare_yaml_structures (.map a) (.map b')) ∧
    (compare_yaml_structures (.seq [stepA, stepB]) (.seq [stepA, stepB]) = true ∧
     compare_yaml_structures (.seq [stepA, stepB]) (.seq [stepB, stepA]) = false) ∧
    (compare_yaml_structures (.map [(.int 1, .null)]) (.map [(.bool true, .null)]) = true ∧
     compare_yaml_structures (.bool true) (.int 1) = false) := by
  refine ⟨?_, ?_, ?_, ⟨rfl, rfl⟩, rfl, rfl⟩
  · intro es js ts jn hjobs hts
    have hes : es ≠ [] := lookup_ne_nil hjobs
    have hesne : (Yaml.map es).falsy = false := by
      cases es with
      | nil => exact absurd rfl hes
      | cons e r => rfl
    have htsne : (Yaml.map ts).falsy = false := by
      cases ts with
      | nil => exact absurd rfl hts
      | cons e r => rfl
    simp only [detect_job_duplicates, normalize_yaml_content, hesne, htsne, Bool.or_self,
      Bool.false_eq_true, if_false, hjobs, Option.getD_some]
    rw [List.mem_map]
    constructor
    · rintro ⟨p, hp, rfl⟩
      rw [List.mem_filter] at hp
      exact ⟨p.2, hp.1, hp.2⟩
    · rintro ⟨body, hmem, hcmp⟩
      exact ⟨(jn, body), List.mem_filter.mpr ⟨hmem, hcmp⟩, rfl⟩
  · intro a a' b h
    show (sameKeySet a b && compareByKeys a b) = (sameKeySet a' b && compareByKeys a' b)
    rw [sameKeySet_perm_left b h, compareByKeys_eq_all, compareByKeys_eq_all, all_perm h]
  · intro a b b' hnd h
    show (sameKeySet a b && compareByKeys a b) = (sameKeySet a b' && compareByKeys a b')
    rw [sameKeySet_perm_right a h, compareByKeys_eq_all, compareByKeys_eq_all]
    have h2 := all_ext a
      (fun p => compare_yaml_structures p.2 ((pyLookup b p.1).getD .null))
      (fun p => compare_yaml_structures p.2 ((pyLookup b' p.1).getD .null))
      (fun p => by simp only []; rw [pyLookup_perm h hnd p.1])
    rw [h2]

/-- C5 witness: the membership characterization applied to a one-job
document whose job a equals the one-key fragment. -/
theorem c5_witness :
    (Yaml.str "a") ∈ detect_job_duplicates
      (.ok (.map [(.str "jobs", .map [(.str "a", .map [(.str "k", .null)])])]))
      (.ok (.map [(.str "k", .null)])) :=
  (c5_amended_detector.1 [(.str "jobs", .map [(.str "a", .map [(.str "k", .null)])])]
    [(.str "a", .map [(.str "k", .null)])] [(.str "k", .null)] (.str "a")
    rfl (by intro h; cases h)).mpr
    ⟨.map [(.str "k", .null)], by simp, by rfl⟩

theorem windowRange_mem {n t i : Nat} : i ∈ windowRange n t ↔ i + t ≤ n := by
  unfold windowRange
  by_cases h : t ≤ n
  · rw [if_pos h]
    rw [List.mem_range]
    omega
  · rw [if_neg h]
    simp only [List.not_mem_nil, false_iff]
    omega

theorem windowMatches_mem (tpl : List Yaml) (jn : Yaml) (ss : List Yaml) (m : StepDup) :
    m ∈ windowMatches tpl jn ss ↔
      ∃ i, i + tpl.length ≤ ss.length ∧
        compare_yaml_structures (.seq ((ss.drop i).take tpl.length)) (.seq tpl) = true ∧
        m = ⟨jn, List.range' i tpl.length, tpl.length⟩ := by
  unfold windowMatches
  rw [List.mem_filterMap]
  constructor
  · rintro ⟨i, hi, hsome⟩
    rw [windowRange_mem] at hi
    by_cases hc : compare_yaml_structures (.seq ((ss.drop i).take tpl.length)) (.seq tpl) = true
    · rw [if_pos hc] at hsome
      cases hsome
      exact ⟨i, hi, hc, rfl⟩
    · rw [if_neg hc] at hsome
      cases hsome
  · rintro ⟨i, hi, hc, rfl⟩
    exact ⟨i, windowRange_mem.mpr hi, by rw [if_pos hc]⟩

theorem detectStepLoop_mem (tpl : List Yaml) :
    ∀ (js : List (Yaml × Yaml)), (∀ p ∈ js, ∃ bes, p.2 = Yaml.map bes) →
    ∀ m, m ∈ detectStepLoop tpl js ↔
      ∃ jn bes ss, (jn, Yaml.map bes) ∈ js ∧ stepsOfBody bes = some ss ∧
        ∃ i, i + tpl.length ≤ ss.length ∧
          compare_yaml_structures (.seq ((ss.drop i).take tpl.length)) (.seq tpl) = true ∧
          m = ⟨jn, List.range' i tpl.length, tpl.length⟩ := by
  intro js
  induction js with
  | nil =>
      intro _ m
      simp [detectStepLoop]
  | cons p rest ih =>
      intro hmaps m
      obtain ⟨jn0, body0⟩ := p
      obtain ⟨bes0, hb0⟩ := hmaps (jn0, body0) (by simp)
      have hrest : ∀ q ∈ rest, ∃ bes, q.2 = Yaml.map bes :=
        fun q hq => hmaps q (by simp [hq])
      subst hb0
      simp only [detectStepLoop]
      cases hsb : (lookup bes0 (.str "steps")).getD (.seq []) with
      | seq ss =>
          have hsteps : stepsOfBody bes0 = some ss := by
            unfold stepsOfBody
            rw [hsb]
          rw [List.mem_append, windowMatches_mem, ih hrest m]
          constructor
          · rintro (⟨i, hi, hc, rfl⟩ | ⟨jn, bes, ss2, hmem, hs2, hrest2⟩)
            · exact ⟨jn0, bes0, ss, by simp, hsteps, i, hi, hc, rfl⟩
            · exact ⟨jn, bes, ss2, by simp [hmem], hs2, hrest2⟩
          · rintro ⟨jn, bes, ss2, hmem, hs2, i, hi, hc, rfl⟩
            rw [List.mem_cons] at hmem
            cases hmem with
            | inl heq =>
                have hjn : jn = jn0 := congrArg Prod.fst heq
                have hbes : Yaml.map bes = Yaml.map bes0 := congrArg Prod.snd heq
                have hbes2 : bes = bes0 := by
                  cases hbes
                  rfl
                subst hjn
                subst hbes2
                rw [hsteps] at hs2
                cases hs2
                exact Or.inl ⟨i, hi, hc, rfl⟩
            | inr hmemr =>
                exact Or.inr ⟨jn, bes, ss2, hmemr, hs2, i, hi, hc, rfl⟩
      | str v =>
          have hsteps0 : stepsOfBody bes0 = none := by
            unfold stepsOfBody
            rw [hsb]
          rw [ih hrest m]
          constructor
          · rintro ⟨jn, bes, ss2, hmem, hs2, hrest2⟩
            exact ⟨jn, bes, ss2, by simp [hmem], hs2, hrest2⟩
          · rintro ⟨jn, bes, ss2, hmem, hs2, i, hi, hc, rfl⟩
            rw [List.mem_cons] at hmem
            cases hmem with
            | inl heq =>
                have hbes : Yaml.map bes = Yaml.map bes0 := congrArg Prod.snd heq
                have hbes2 : bes = bes0 := by
                  cases hbes
                  rfl
                subst hbes2
                rw [hsteps0] at hs2
                cases hs2
            | inr hmemr =>
                exact ⟨jn, bes, ss2, hmemr, hs2, i, hi, hc, rfl⟩
      | bool v =>
          have hsteps0 : stepsOfBody bes0 = none := by
            unfold stepsOfBody
            rw [hsb]
          rw [ih hrest m]
          constructor
          · rintro ⟨jn, bes, ss2, hmem, hs2, hrest2⟩
            exact ⟨jn, bes, ss2, by simp [hmem], hs2, hrest2⟩
          · rintro ⟨jn, bes, ss2, hmem, hs2, i, hi, hc, rfl⟩
            rw [List.mem_cons] at hmem
            cases hmem with
            | inl heq =>
                have hbes : Yaml.map bes = Yaml.map bes0 := congrArg Prod.snd heq
                have hbes2 : bes = bes0 := by
                  cases hbes
                  rfl
                subst hbes2
                rw [hsteps0] at hs2
                cases hs2
            | inr hmemr =>
                exact ⟨jn, bes, ss2, hmemr, hs2, i, hi, hc, rfl⟩
      | int v =>
          have hsteps0 : stepsOfBody bes0 = none := by
            unfold stepsOfBody
            rw [hsb]
          rw [ih hrest m]
          constructor
          · rintro ⟨jn, bes, ss2, hmem, hs2, hrest2⟩
            exact ⟨jn, bes, ss2, by simp [hmem], hs2, hrest2⟩
          · rintro ⟨jn, bes, ss2, hmem, hs2, i, hi, hc, rfl⟩
            rw [List.mem_cons] at hmem
            cases hmem with
            | inl heq =>
                have hbes : Yaml.map bes = Yaml.map bes0 := congrArg Prod.snd heq
                have hbes2 : bes = bes0 := by
                  cases hbes
                  rfl
                subst hbes2
                rw [hsteps0] at hs2
                cases hs2
            | inr hmemr =>
                exact ⟨jn, bes, ss2, hmemr, hs2, i, hi, hc, rfl⟩
      | null =>
          have hsteps0 : stepsOfBody bes0 = none := by
            unfold stepsOfBody
            rw [hsb]
          rw [ih hrest m]
          constructor
          · rintro ⟨jn, bes, ss2, hmem, hs2, hrest2⟩
            exact ⟨jn, bes, ss2, by simp [hmem], hs2, hrest2⟩
          · rintro ⟨jn, bes, ss2, hmem, hs2, i, hi, hc, rfl⟩
            rw [List.mem_cons] at hmem
            cases hmem with
            | inl heq =>
                have hbes : Yaml.map bes = Yaml.map bes0 := congrArg Prod.snd heq
                have hbes2 : bes = bes0 := by
                  cases hbes
                  rfl
                subst hbes2
                rw [hsteps0] at hs2
                cases hs2
            | inr hmemr =>
                exact ⟨jn, bes, ss2, hmemr, hs2, i, hi, hc, rfl⟩
      | map v =>
          have hsteps0 : stepsOfBody bes0 = none := by
            unfold stepsOfBody
            rw [hsb]
          rw [ih hrest m]
          constructor
          · rintro ⟨jn, bes, ss2, hmem, hs2, hrest2⟩
            exact ⟨jn, bes, ss2, by simp [hmem], hs2, hrest2⟩
          · rintro ⟨jn, bes, ss2, hmem, hs2, i, hi, hc, rfl⟩
            rw [List.mem_cons] at hmem
            cases hmem with
            | inl heq =>
                have hbes : Yaml.map bes = Yaml.map bes0 := congrArg Prod.snd heq
                have hbes2 : bes = bes0 := by
                  cases hbes
                  rfl
                subst hbes2
                rw [hsteps0] at hs2
                cases hs2
            | inr hmemr =>
                exact ⟨jn, bes, ss2, hmemr, hs2, i, hi, hc, rfl⟩

/-- C6 counterexample: the claim states that for every job, exactly the
windows structurally equal to the fragment are reported.  The code aborts
the whole scan when it reaches a job whose body is not a mapping (the .get
call raises and the handler returns what was collected so far): with job a
carrying a null body before job b, the matching window [0, 1] of job b is
never reported. -/
theorem c6_counterexample :
    detect_step_duplicates
      (.ok (.map [(.str "jobs", .map [(.str "a", .null),
        (.str "b", .map [(.str "steps", .seq [stepA, stepB])])])]))
      (.ok (.seq [stepA, stepB])) = [] ∧
    compare_yaml_structures (.seq [stepA, stepB]) (.seq [stepA, stepB]) = true :=
  ⟨rfl, rfl⟩

/-- C6 amended: provided the fragment is a non-empty sequence and every
job body is a mapping, detect_step_duplicates reports exactly the
contiguous windows of fragment length that the source comparator finds
equal to the fragment, each with its index range, overlapping windows
evaluated independently; in particular steps a b c d against fragment b c
report exactly the range starting at 1, and steps a b a b against
fragment a b report the ranges starting at 0 and at 2. -/
theorem c6_amended_window_detection :
    (∀ (es js : List (Yaml × Yaml)) (tpl : List Yaml) (m : StepDup),
      lookup es (.str "jobs") = some (.map js) → tpl ≠ [] →
      (∀ p ∈ js, ∃ bes, p.2 = Yaml.map bes) →
      (m ∈ detect_step_duplicates (.ok (.map es)) (.ok (.seq tpl)) ↔
        ∃ jn bes ss, (jn, Yaml.map bes) ∈ js ∧ stepsOfBody bes = some ss ∧
          ∃ i, i + tpl.length ≤ ss.length ∧
            compare_yaml_structures (.seq ((ss.drop i).take tpl.length)) (.seq tpl) = true ∧
            m = ⟨jn, List.range' i tpl.length, tpl.length⟩)) ∧
    detect_step_duplicates (.ok (wfWithSteps [stepA, stepB, stepC, stepD]))
      (.ok (.seq [stepB, stepC])) = [⟨.str "j", [1, 2], 2⟩] ∧
    detect_step_duplicates (.ok (wfWithSteps [stepA, stepB, stepA, stepB]))
      (.ok (.seq [stepA, stepB])) = [⟨.str "j", [0, 1], 2⟩, ⟨.str "j", [2, 3], 2⟩] := by
  refine ⟨?_, rfl, rfl⟩
  intro es js tpl m hjobs htpl hmaps
  have hes : es ≠ [] := lookup_ne_nil hjobs
  have hesne : (Yaml.map es).falsy = false := by
    cases es with
    | nil => exact absurd rfl hes
    | cons e r => rfl
  have htplne : (Yaml.seq tpl).falsy = false := by
    cases tpl with
    | nil => exact absurd rfl htpl
    | cons e r => rfl
  simp only [detect_step_duplicates, normalize_yaml_content, hesne, htplne, Bool.or_self,
    Bool.false_eq_true, if_false, hjobs, Option.getD_some]
  exact detectStepLoop_mem tpl js hmaps m

/-- C6 witness: the window characterization applied to the four-step job
and the two-step fragment, exhibiting the window at index 1. -/
theorem c6_witness :
    (⟨.str "j", [1, 2], 2⟩ : StepDup) ∈ detect_step_duplicates
      (.ok (wfWithSteps [stepA, stepB, stepC, stepD])) (.ok (.seq [stepB, stepC])) :=
  (c6_amended_window_detection.1
    [(.str "jobs", .map [(.str "j", .map [(.str "steps", .seq [stepA, stepB, stepC, stepD])])])]
    [(.str "j", .map [(.str "steps", .seq [stepA, stepB, stepC, stepD])])]
    [stepB, stepC] ⟨.str "j", [1, 2], 2⟩ rfl (by intro h; cases h)
    (by
      intro p hp
      rw [List.mem_singleton] at hp
      exact ⟨[(.str "steps", .seq [stepA, stepB, stepC, stepD])], by rw [hp]⟩)).mpr
    ⟨.str "j", [(.str "steps", .seq [stepA, stepB, stepC, stepD])],
      [stepA, stepB, stepC, stepD], by simp, rfl, 1, by simp, by rfl, by
        show (⟨.str "j", [1, 2], 2⟩ : StepDup) = ⟨.str "j", List.range' 1 2, 2⟩
        rfl⟩

end Onboard
